import Mathlib

/-!
Foobargrind (`fb_main.c`): the instrumentation pass `fb_instrument`, its three
runtime collectors and the report of `fb_fini`, as a shallow embedding.

* A superblock (`IRSB`) is the list of its statements `stmts[0 .. stmts_used)`.
  `stmts_used` is a C `Int`, so a real block has fewer than `2^31` statements;
  theorems that need this say so with the hypothesis `sbIn.length < 2^31`.
* The statements of the output are either a statement of the input, added by
  `addStmtToIRSB( sbOut, st )`, or one of the three dirty calls the pass builds
  with `unsafeIRDirty_0_N` and adds as `IRStmt_Dirty(di)`.  The type `OutStmt`
  keeps the two apart: guest IR never calls the tool's own collectors.
* The entries `stmts[i]` of a block are never NULL, so the test `!st` of the main
  loop is never true and the type of statements has no NULL.
* `ULong` is 64 bits, `int` is 32 bits (two's complement), `HWord` is the
  64-bit host word.  Unsigned arithmetic is written with an explicit
  `% 2^64`.  A dirty call passes its argument as one host word: a callee with
  an `int` parameter reads the low 32 bits of it, a callee with a `ULong`
  parameter all of it.
* The run of an instrumented block (`run`, `executed`) follows the description of
  the IR: statements run in order, and an Exit whose guard is nonzero leaves the
  block.  IR temporaries are assigned once, so one environment gives the value of
  every expression during a run.
* `PAGE_SIZE` comes from `<sys/user.h>`, which is not part of the repository;
  it is a parameter of every definition that uses it.
* `fb_fini` returns the list of its `VG_(umsg)` calls, each with the values it
  prints, and the Statistics Store it leaves.
-/

namespace Foobargrind

/-! ## The IR -/

/-- Flat IR expressions, as far as `fb_instrument` and the run of a block look at
them: a constant, or the value of an IR temporary. -/
inductive IRExpr where
  | Const (v : Nat)
  | RdTmp (t : Nat)
  deriving DecidableEq, Repr

/-- Statement tags.  `Ist_Other` stands for every tag that `fb_instrument` sends to
the `default:` case of its `switch` (AbiHint, Put, PutI, WrTmp, LoadG, StoreG, CAS,
LLSC, Dirty, MBE). -/
inductive IRStmtTag where
  | Ist_NoOp
  | Ist_IMark
  | Ist_Store
  | Ist_Exit
  | Ist_Other
  deriving DecidableEq, Repr

/-- Guest statements, with the fields the pass reads: `Ist.IMark.len` and
`Ist.Store.addr`.  `Other` carries an opaque payload that tells two statements of
the remaining kinds apart. -/
inductive IRStmt where
  | NoOp
  | IMark (addr : Nat) (len : Nat) (delta : Nat)
  | Store (addr : IRExpr) (data : IRExpr)
  | Exit (guard : IRExpr) (dst : Nat)
  | Other (payload : Nat)
  deriving DecidableEq, Repr

/-- The field `st->tag`. -/
def IRStmt.tag : IRStmt → IRStmtTag
  | .NoOp => .Ist_NoOp
  | .IMark _ _ _ => .Ist_IMark
  | .Store _ _ => .Ist_Store
  | .Exit _ _ => .Ist_Exit
  | .Other _ => .Ist_Other

/-- The three runtime collectors a dirty call of the pass can name. -/
inductive Collector where
  | add_instr_len
  | add_mem_access
  | add_n_guest_store
  deriving DecidableEq, Repr

/-- A statement of the output block: `Dirty cee arg` is
`IRStmt_Dirty(unsafeIRDirty_0_N(1, name, fnentry, mkIRExprVec_1(arg)))` for the
collector `cee`; `Stmt st` is the input statement `st`, added unchanged. -/
inductive OutStmt where
  | Dirty (cee : Collector) (arg : IRExpr)
  | Stmt (st : IRStmt)
  deriving DecidableEq, Repr

/-- The host word modulus: `HWord` is 64 bits wide. -/
def HWORD_MOD : Nat := 2 ^ 64

/-- The modulus of `ULong`. -/
def ULONG_MOD : Nat := 2 ^ 64

/-- `mkIRExpr_HWord(hw)`: the constant expression holding the host word `hw`. -/
def mkIRExpr_HWord (hw : Nat) : IRExpr := .Const hw

/-! ## `fb_instrument` -/

/-- The loop state of the main `for` loop of `fb_instrument`: the statements added to
`sbOut` so far and the block-local tally `store_cnt`. -/
structure WalkState where
  sbOut : List OutStmt
  store_cnt : Nat
  deriving DecidableEq, Repr

/-- One iteration of the main `for` loop (lines 94-139): `continue` on a NoOp;
otherwise the `switch` on the tag, then `addStmtToIRSB( sbOut, st )`. -/
def walkStep (s : WalkState) (st : IRStmt) : WalkState :=
  match st with
  | .NoOp => s
  | .Store addr _ =>
      { sbOut := s.sbOut ++ [.Dirty .add_mem_access addr, .Stmt st],
        store_cnt := (s.store_cnt + 1) % HWORD_MOD }
  | .IMark _ len _ =>
      { sbOut := s.sbOut ++ [.Dirty .add_instr_len (mkIRExpr_HWord len), .Stmt st],
        store_cnt := s.store_cnt }
  | .Exit _ _ =>
      { sbOut := s.sbOut ++ [.Dirty .add_n_guest_store (mkIRExpr_HWord s.store_cnt), .Stmt st],
        store_cnt := 0 }
  | .Other _ =>
      { sbOut := s.sbOut ++ [.Stmt st], store_cnt := s.store_cnt }

/-- The statements the preamble loop (lines 85-90) runs over: those before the first
IMark. -/
def preamble (sbIn : List IRStmt) : List IRStmt :=
  sbIn.takeWhile (fun st => st.tag != .Ist_IMark)

/-- The statements left for the main loop: from the first IMark on. -/
def walkPart (sbIn : List IRStmt) : List IRStmt :=
  sbIn.dropWhile (fun st => st.tag != .Ist_IMark)

/-- What the preamble loop adds to `sbOut`: every preamble statement whose tag is not
`Ist_NoOp`. -/
def copyPreamble (sbIn : List IRStmt) : List OutStmt :=
  ((preamble sbIn).filter (fun st => st.tag != .Ist_NoOp)).map .Stmt

/-- The state after the main loop. -/
def walk (sbIn : List IRStmt) : WalkState :=
  (walkPart sbIn).foldl walkStep { sbOut := copyPreamble sbIn, store_cnt := 0 }

/-- The statements of the block `fb_instrument` returns: the preamble copy, the main
walk, and the final flush when `store_cnt != 0` (lines 141-150). -/
def fb_instrument (sbIn : List IRStmt) : List OutStmt :=
  let s := walk sbIn
  if s.store_cnt ≠ 0 then
    s.sbOut ++ [.Dirty .add_n_guest_store (mkIRExpr_HWord s.store_cnt)]
  else
    s.sbOut

/-! ## The Statistics Store and the collectors -/

/-- The globals `n_st`, `instr_len[MAX_INSTR_LEN]` and `mem_access[PAGE_SIZE]`; the
arrays are given as functions of the index. -/
structure Stats where
  n_st : Nat
  instr_len : Nat → Nat
  mem_access : Nat → Nat

/-- The zero-initialised statics. -/
def Stats.zero : Stats :=
  { n_st := 0, instr_len := fun _ => 0, mem_access := fun _ => 0 }

/-- The macro `MAX_INSTR_LEN`. -/
def MAX_INSTR_LEN : Nat := 16

/-- The static `max_instr_len`, never written after its initialisation. -/
def max_instr_len : Nat := MAX_INSTR_LEN

/-- The conversion of an `int` to `ULong`. -/
def toULong (i : Int) : Nat := (i % (ULONG_MOD : Int)).toNat

/-- The `int` a callee reads from a 64-bit argument: its low 32 bits, signed. -/
def toInt32 (v : Nat) : Int :=
  if v % 2 ^ 32 < 2 ^ 31 then ((v % 2 ^ 32 : Nat) : Int) else ((v % 2 ^ 32 : Nat) : Int) - 2 ^ 32

/-- `add_instr_len(idx)`: `none` when `tl_assert(idx < max_instr_len)` fails (the
comparison is made in `ULong`), else `++instr_len[idx]`. -/
def add_instr_len (idx : Int) (s : Stats) : Option Stats :=
  if toULong idx < max_instr_len then
    some { s with
      instr_len := Function.update s.instr_len idx.toNat
        ((s.instr_len idx.toNat + 1) % ULONG_MOD) }
  else
    none

/-- `add_mem_access(addr)`: `++mem_access[addr % PAGE_SIZE]`. -/
def add_mem_access (PAGE_SIZE : Nat) (addr : Nat) (s : Stats) : Stats :=
  { s with
    mem_access := Function.update s.mem_access (addr % PAGE_SIZE)
      ((s.mem_access (addr % PAGE_SIZE) + 1) % ULONG_MOD) }

/-- `add_n_guest_store(store)`: `n_st += store`, the `int` converted to `ULong`. -/
def add_n_guest_store (store : Int) (s : Stats) : Stats :=
  { s with n_st := (s.n_st + toULong store) % ULONG_MOD }

/-! ## Running a block -/

/-- The 64-bit value of an expression, `env` giving the value of each temporary. -/
def evalExpr (env : Nat → Nat) : IRExpr → Nat
  | .Const v => v % HWORD_MOD
  | .RdTmp t => env t % HWORD_MOD

/-- The dirty call of a collector with the 64-bit argument value `v`. -/
def callCollector (PAGE_SIZE : Nat) (cee : Collector) (v : Nat) (s : Stats) : Option Stats :=
  match cee with
  | .add_instr_len => add_instr_len (toInt32 v) s
  | .add_mem_access => some (add_mem_access PAGE_SIZE v s)
  | .add_n_guest_store => some (add_n_guest_store (toInt32 v) s)

/-- A single-threaded run of an instrumented block on the Statistics Store: the
statements run in order, a dirty call runs its collector, and the run stops at the
first Exit whose guard is nonzero.  `none`: a collector aborted. -/
def run (PAGE_SIZE : Nat) (env : Nat → Nat) : List OutStmt → Stats → Option Stats
  | [], s => some s
  | .Dirty cee arg :: rest, s =>
      match callCollector PAGE_SIZE cee (evalExpr env arg) s with
      | some s1 => run PAGE_SIZE env rest s1
      | none => none
  | .Stmt (.Exit guard _) :: rest, s =>
      if evalExpr env guard ≠ 0 then some s else run PAGE_SIZE env rest s
  | .Stmt _ :: rest, s => run PAGE_SIZE env rest s

/-- The statements of a block that one run executes: all of them up to and including
the first Exit whose guard is nonzero, or the whole block. -/
def executed (env : Nat → Nat) : List IRStmt → List IRStmt
  | [] => []
  | .Exit guard dst :: rest =>
      if evalExpr env guard ≠ 0 then [.Exit guard dst]
      else .Exit guard dst :: executed env rest
  | st :: rest => st :: executed env rest

/-! ## Observations on blocks -/

/-- The number of statements with the given tag. -/
def countTag (t : IRStmtTag) (l : List IRStmt) : Nat :=
  l.countP (fun st => st.tag == t)

/-- The output with the inserted dirty calls deleted. -/
def origStmts : List OutStmt → List IRStmt
  | [] => []
  | .Dirty _ _ :: rest => origStmts rest
  | .Stmt st :: rest => st :: origStmts rest

/-- The arguments of the dirty calls to the collector `cee`, in output order. -/
def callArgs (cee : Collector) : List OutStmt → List IRExpr
  | [] => []
  | .Dirty c arg :: rest => if c = cee then arg :: callArgs cee rest else callArgs cee rest
  | .Stmt _ :: rest => callArgs cee rest

/-- The lengths of the IMark statements, in order. -/
def imarkLens : List IRStmt → List Nat
  | [] => []
  | .IMark _ len _ :: rest => len :: imarkLens rest
  | _ :: rest => imarkLens rest

/-- The input with its NoOp statements removed. -/
def dropNoOps (l : List IRStmt) : List IRStmt :=
  l.filter (fun st => st.tag != .Ist_NoOp)

/-- The statements the main loop adds to `sbOut` when it runs over `l` with the
tally `c` on entry. -/
def walkOut : List IRStmt → Nat → List OutStmt
  | [], _ => []
  | st :: rest, c =>
      (walkStep { sbOut := [], store_cnt := c } st).sbOut ++
        walkOut rest (walkStep { sbOut := [], store_cnt := c } st).store_cnt

/-- The tally after the main loop has run over `l` with the tally `c` on entry. -/
def walkCnt : List IRStmt → Nat → Nat
  | [], c => c
  | st :: rest, c => walkCnt rest (walkStep { sbOut := [], store_cnt := c } st).store_cnt

/-- The final flush for the tally `c` (lines 141-150). -/
def finalFlush (c : Nat) : List OutStmt :=
  if c ≠ 0 then [.Dirty .add_n_guest_store (mkIRExpr_HWord c)] else []

/-- The statements after the last Exit of `l` (all of `l` when it has no Exit). -/
def sinceLastExit (l : List IRStmt) : List IRStmt :=
  (l.reverse.takeWhile (fun st => st.tag != .Ist_Exit)).reverse

/-- The sum of the argument values of the add_n_guest_store calls of an output. -/
def flushSum (env : Nat → Nat) (out : List OutStmt) : Nat :=
  ((callArgs .add_n_guest_store out).map (evalExpr env)).sum

/-- Whether a run of `l` leaves at one of its Exits: some Exit has a nonzero guard. -/
def takesExit (env : Nat → Nat) : List IRStmt → Bool
  | [] => false
  | .Exit guard _ :: rest => if evalExpr env guard ≠ 0 then true else takesExit env rest
  | _ :: rest => takesExit env rest

/-- The sum of the entries `0 .. n-1` of a histogram. -/
def histSum (n : Nat) (h : Nat → Nat) : Nat :=
  (Finset.range n).sum h

/-! ## `fb_fini` -/

/-- One call of `VG_(umsg)` in `fb_fini`, with the values its format string prints:
`blank` is `"\n"`, `executedHeader` is `"Executed:\n"`, `guestStores n` is the line
`guest store instrs`, `instrLenHeader` is `"\tInstr len:\n"`, `lenRow i n` is the
line `len: i | n: n`, `memHeader` is `"\n\tmem stores:\n"`, `memRow i n` is the line
`addr % page_size: i | n: n`, and `exitCodeLine c` is the line `Exit code`. -/
inductive UMsg where
  | blank
  | executedHeader
  | guestStores (n : Nat)
  | instrLenHeader
  | lenRow (i : Nat) (n : Nat)
  | memHeader
  | memRow (i : Nat) (n : Nat)
  | exitCodeLine (c : Int)
  deriving DecidableEq, Repr

/-- `fb_fini(exitcode)`: the messages it prints, in order, and the Statistics Store
after it.  The first loop runs `i` from 1 while `i < max_instr_len`; the second runs
`i` from 0 while `i < PAGE_SIZE` and prints a row when `mem_access[i]` is nonzero. -/
def fb_fini (PAGE_SIZE : Nat) (exitcode : Int) (s : Stats) : List UMsg × Stats :=
  ([.blank, .executedHeader, .guestStores s.n_st, .blank, .instrLenHeader] ++
    (List.range' 1 (max_instr_len - 1)).map (fun i => .lenRow i (s.instr_len i)) ++
    [.memHeader] ++
    ((List.range PAGE_SIZE).filter (fun i => s.mem_access i != 0)).map
      (fun i => .memRow i (s.mem_access i)) ++
    [.exitCodeLine exitcode], s)

/-- The rows of the instruction-length table among the messages, in order. -/
def lenRows : List UMsg → List (Nat × Nat)
  | [] => []
  | .lenRow i n :: rest => (i, n) :: lenRows rest
  | _ :: rest => lenRows rest

/-- The rows of the memory-store table among the messages, in order. -/
def memRows : List UMsg → List (Nat × Nat)
  | [] => []
  | .memRow i n :: rest => (i, n) :: memRows rest
  | _ :: rest => memRows rest

/-! ## Runs of several blocks -/

/-- A sequence of block executions on one Statistics Store: each element is an input
block with the environment of that execution; the block runs in its instrumented
form.  `none`: a collector aborted. -/
def runBlocks (PAGE_SIZE : Nat) : List ((Nat → Nat) × List IRStmt) → Stats → Option Stats
  | [], s => some s
  | (env, sbIn) :: rest, s =>
      match run PAGE_SIZE env (fb_instrument sbIn) s with
      | some s1 => runBlocks PAGE_SIZE rest s1
      | none => none

/-! ## The shape of the output -/

theorem walkStep_frame (s : WalkState) (st : IRStmt) :
    walkStep s st =
      { sbOut := s.sbOut ++ (walkStep { sbOut := [], store_cnt := s.store_cnt } st).sbOut,
        store_cnt := (walkStep { sbOut := [], store_cnt := s.store_cnt } st).store_cnt } := by
  cases st <;> simp [walkStep]

theorem foldl_walkStep (l : List IRStmt) (s : WalkState) :
    l.foldl walkStep s =
      { sbOut := s.sbOut ++ walkOut l s.store_cnt, store_cnt := walkCnt l s.store_cnt } := by
  induction l generalizing s with
  | nil => simp [walkOut, walkCnt]
  | cons st rest ih =>
      rw [List.foldl_cons, ih, walkStep_frame s st]
      simp [walkOut, walkCnt]

theorem fb_instrument_eq (sbIn : List IRStmt) :
    fb_instrument sbIn =
      copyPreamble sbIn ++ walkOut (walkPart sbIn) 0 ++ finalFlush (walkCnt (walkPart sbIn) 0) := by
  unfold fb_instrument walk finalFlush
  rw [foldl_walkStep]
  by_cases h : walkCnt (walkPart sbIn) 0 = 0 <;> simp [h]

theorem preamble_append_walkPart (sbIn : List IRStmt) :
    preamble sbIn ++ walkPart sbIn = sbIn := by
  simp [preamble, walkPart]

theorem origStmts_append (a b : List OutStmt) :
    origStmts (a ++ b) = origStmts a ++ origStmts b := by
  induction a with
  | nil => rfl
  | cons x rest ih => cases x <;> simp [origStmts, ih]

theorem callArgs_append (cee : Collector) (a b : List OutStmt) :
    callArgs cee (a ++ b) = callArgs cee a ++ callArgs cee b := by
  induction a with
  | nil => rfl
  | cons x rest ih =>
      cases x with
      | Dirty c arg => by_cases h : c = cee <;> simp [callArgs, h, ih]
      | Stmt st => simp [callArgs, ih]

theorem origStmts_map_Stmt (l : List IRStmt) : origStmts (l.map .Stmt) = l := by
  induction l with
  | nil => rfl
  | cons x rest ih => simp [origStmts, ih]

theorem callArgs_map_Stmt (cee : Collector) (l : List IRStmt) :
    callArgs cee (l.map .Stmt) = [] := by
  induction l with
  | nil => rfl
  | cons x rest ih => simp [callArgs, ih]

theorem origStmts_finalFlush (c : Nat) : origStmts (finalFlush c) = [] := by
  unfold finalFlush
  split <;> rfl

theorem origStmts_walkOut (l : List IRStmt) (c : Nat) :
    origStmts (walkOut l c) = dropNoOps l := by
  induction l generalizing c with
  | nil => rfl
  | cons st rest ih =>
      cases st <;>
        simp [walkOut, walkStep, origStmts, origStmts_append, ih, dropNoOps, IRStmt.tag]

theorem dropNoOps_append (a b : List IRStmt) :
    dropNoOps (a ++ b) = dropNoOps a ++ dropNoOps b := by
  simp [dropNoOps]

theorem imarkLens_append (a b : List IRStmt) :
    imarkLens (a ++ b) = imarkLens a ++ imarkLens b := by
  induction a with
  | nil => rfl
  | cons x rest ih => cases x <;> simp [imarkLens, ih]

theorem imarkLens_preamble (sbIn : List IRStmt) : imarkLens (preamble sbIn) = [] := by
  induction sbIn with
  | nil => rfl
  | cons x rest ih =>
      cases x <;> simp_all [preamble, imarkLens, IRStmt.tag, List.takeWhile]

theorem imarkLens_length (l : List IRStmt) :
    (imarkLens l).length = countTag .Ist_IMark l := by
  induction l with
  | nil => rfl
  | cons x rest ih =>
      cases x <;> simp_all [imarkLens, countTag, IRStmt.tag, List.countP_cons]

theorem callArgs_instr_len_walkOut (l : List IRStmt) (c : Nat) :
    callArgs .add_instr_len (walkOut l c) = (imarkLens l).map mkIRExpr_HWord := by
  induction l generalizing c with
  | nil => rfl
  | cons st rest ih =>
      cases st <;> simp [walkOut, walkStep, callArgs, callArgs_append, ih, imarkLens]

theorem walkOut_append (a b : List IRStmt) (c : Nat) :
    walkOut (a ++ b) c = walkOut a c ++ walkOut b (walkCnt a c) := by
  induction a generalizing c with
  | nil => rfl
  | cons st rest ih => simp [walkOut, walkCnt, ih]

theorem walkCnt_append (a b : List IRStmt) (c : Nat) :
    walkCnt (a ++ b) c = walkCnt b (walkCnt a c) := by
  induction a generalizing c with
  | nil => rfl
  | cons st rest ih => simp [walkCnt, ih]

theorem sinceLastExit_snoc (l : List IRStmt) (st : IRStmt) :
    sinceLastExit (l ++ [st]) =
      if st.tag = .Ist_Exit then [] else sinceLastExit l ++ [st] := by
  unfold sinceLastExit
  by_cases h : st.tag = .Ist_Exit <;> simp [List.takeWhile_cons, h]

theorem countTag_append (t : IRStmtTag) (a b : List IRStmt) :
    countTag t (a ++ b) = countTag t a + countTag t b := by
  simp [countTag]

theorem countTag_le_length (t : IRStmtTag) (l : List IRStmt) : countTag t l ≤ l.length :=
  List.countP_le_length _

theorem sinceLastExit_length_le (l : List IRStmt) : (sinceLastExit l).length ≤ l.length := by
  unfold sinceLastExit
  rw [List.length_reverse]
  calc (List.takeWhile (fun st => st.tag != .Ist_Exit) l.reverse).length
      ≤ l.reverse.length := (List.takeWhile_sublist _).length_le
    _ = l.length := List.length_reverse l

theorem walkPart_length_le (l : List IRStmt) : (walkPart l).length ≤ l.length :=
  (List.dropWhile_sublist _).length_le

/-- The tally after the walk is the number of stores since the last Exit, as a host
word. -/
theorem walkCnt_zero (l : List IRStmt) :
    walkCnt l 0 = countTag .Ist_Store (sinceLastExit l) % HWORD_MOD := by
  induction l using List.reverseRecOn with
  | nil => rfl
  | append_singleton l st ih =>
      rw [walkCnt_append, sinceLastExit_snoc, ih]
      cases st <;>
        simp [walkCnt, walkStep, IRStmt.tag, countTag_append, countTag, HWORD_MOD]

theorem trailing_lt (l : List IRStmt) (h : l.length < 2 ^ 31) :
    countTag .Ist_Store (sinceLastExit (walkPart l)) < 2 ^ 31 :=
  calc countTag .Ist_Store (sinceLastExit (walkPart l))
      ≤ (sinceLastExit (walkPart l)).length := countTag_le_length _ _
    _ ≤ (walkPart l).length := sinceLastExit_length_le _
    _ ≤ l.length := walkPart_length_le _
    _ < 2 ^ 31 := h

theorem preamble_eq_self (l : List IRStmt) (h : ∀ st ∈ l, st.tag ≠ .Ist_IMark) :
    preamble l = l := by
  unfold preamble
  rw [List.takeWhile_eq_self_iff]
  intro st hst
  simpa using h st hst

theorem walkPart_eq_nil (l : List IRStmt) (h : ∀ st ∈ l, st.tag ≠ .Ist_IMark) :
    walkPart l = [] := by
  unfold walkPart
  rw [List.dropWhile_eq_nil_iff]
  intro st hst
  simpa using h st hst

/-- The value flushed by the walk over `l` entered with the tally `c`, final flush
included, is `c` plus the number of stores of `l`. -/
theorem flushSum_walkOut (env : Nat → Nat) (l : List IRStmt) (c : Nat)
    (h : c + l.length < 2 ^ 64) :
    flushSum env (walkOut l c ++ finalFlush (walkCnt l c)) = c + countTag .Ist_Store l := by
  induction l generalizing c with
  | nil =>
      have hc : c < 2 ^ 64 := by simpa using h
      by_cases h0 : c = 0
      · simp [walkOut, walkCnt, finalFlush, flushSum, callArgs, countTag, h0]
      · have hm : c % HWORD_MOD = c := Nat.mod_eq_of_lt (by unfold HWORD_MOD; omega)
        simp [walkOut, walkCnt, finalFlush, flushSum, callArgs, countTag, h0, evalExpr,
          mkIRExpr_HWord, hm]
  | cons st rest ih =>
      have hl : c + rest.length + 1 < 2 ^ 64 := by simpa [Nat.add_assoc] using h
      cases st with
      | NoOp =>
          have := ih c (by omega)
          simpa [walkOut, walkCnt, walkStep, countTag, IRStmt.tag] using this
      | IMark a len d =>
          have := ih c (by omega)
          simpa [walkOut, walkCnt, walkStep, countTag, IRStmt.tag, flushSum, callArgs] using this
      | Other p =>
          have := ih c (by omega)
          simpa [walkOut, walkCnt, walkStep, countTag, IRStmt.tag, flushSum, callArgs] using this
      | Store a d =>
          have hm : (c + 1) % HWORD_MOD = c + 1 := Nat.mod_eq_of_lt (by unfold HWORD_MOD; omega)
          have := ih (c + 1) (by omega)
          simp only [walkOut, walkCnt, walkStep, hm, List.nil_append, List.cons_append,
            flushSum, callArgs] at this ⊢
          simp [countTag, IRStmt.tag] at this ⊢
          omega
      | Exit g d =>
          have hm : c % HWORD_MOD = c := Nat.mod_eq_of_lt (by unfold HWORD_MOD; omega)
          have := ih 0 (by omega)
          simp only [walkOut, walkCnt, walkStep, List.nil_append, List.cons_append,
            flushSum, callArgs] at this ⊢
          simp [countTag, IRStmt.tag, evalExpr, mkIRExpr_HWord, hm] at this ⊢
          omega

theorem flushSum_append (env : Nat → Nat) (a b : List OutStmt) :
    flushSum env (a ++ b) = flushSum env a + flushSum env b := by
  simp [flushSum, callArgs_append]

theorem flushSum_copyPreamble (env : Nat → Nat) (l : List IRStmt) :
    flushSum env (copyPreamble l) = 0 := by
  simp [flushSum, copyPreamble, callArgs_map_Stmt]

theorem callArgs_store_walkOut_length (l : List IRStmt) (c : Nat) :
    (callArgs .add_n_guest_store (walkOut l c)).length = countTag .Ist_Exit l := by
  induction l generalizing c with
  | nil => rfl
  | cons st rest ih =>
      cases st <;>
        simp [walkOut, walkStep, callArgs, ih, countTag, IRStmt.tag, List.countP_cons]

theorem callArgs_access_walkOut_length (l : List IRStmt) (c : Nat) :
    (callArgs .add_mem_access (walkOut l c)).length = countTag .Ist_Store l := by
  induction l generalizing c with
  | nil => rfl
  | cons st rest ih =>
      cases st <;>
        simp [walkOut, walkStep, callArgs, ih, countTag, IRStmt.tag, List.countP_cons]

theorem preamble_append_of_imark (A X : List IRStmt) (h : ∃ st ∈ A, st.tag = .Ist_IMark) :
    preamble (A ++ X) = preamble A := by
  induction A with
  | nil => simp at h
  | cons a rest ih =>
      by_cases ha : a.tag = .Ist_IMark
      · simp [preamble, List.takeWhile_cons, ha]
      · have hr : ∃ st ∈ rest, st.tag = .Ist_IMark := by
          obtain ⟨st, hst, ht⟩ := h
          rcases List.mem_cons.mp hst with rfl | hm
          · exact absurd ht ha
          · exact ⟨st, hm, ht⟩
        have := ih hr
        simp only [preamble] at this ⊢
        simp [List.takeWhile_cons, ha, this]

theorem walkPart_append_of_imark (A X : List IRStmt) (h : ∃ st ∈ A, st.tag = .Ist_IMark) :
    walkPart (A ++ X) = walkPart A ++ X := by
  induction A with
  | nil => simp at h
  | cons a rest ih =>
      by_cases ha : a.tag = .Ist_IMark
      · simp [walkPart, List.dropWhile_cons, ha]
      · have hr : ∃ st ∈ rest, st.tag = .Ist_IMark := by
          obtain ⟨st, hst, ht⟩ := h
          rcases List.mem_cons.mp hst with rfl | hm
          · exact absurd ht ha
          · exact ⟨st, hm, ht⟩
        have := ih hr
        simp only [walkPart] at this ⊢
        simp [List.dropWhile_cons, ha, this]

/-- The statements added before the final flush, with the inserted calls deleted, are
the input statements other than NoOp. -/
theorem origStmts_emitted (A : List IRStmt) (c : Nat) :
    origStmts (copyPreamble A ++ walkOut (walkPart A) c) = dropNoOps A := by
  rw [origStmts_append, origStmts_walkOut]
  unfold copyPreamble
  rw [origStmts_map_Stmt]
  conv_rhs => rw [← preamble_append_walkPart A, dropNoOps_append]
  simp [dropNoOps]

/-- An output whose last statement is no dirty call ends with its last original
statement. -/
theorem getLast_of_not_dirty (out : List OutStmt)
    (h : ∀ cee arg, out.getLast? ≠ some (.Dirty cee arg)) :
    out.getLast? = (origStmts out).getLast?.map .Stmt := by
  induction out using List.reverseRecOn with
  | nil => rfl
  | append_singleton init x _ =>
      cases x with
      | Dirty cee arg => exact absurd (List.getLast?_concat init) (h cee arg)
      | Stmt st => simp [origStmts_append, origStmts]

theorem walkOut_getLast_not_dirty (P : List OutStmt) (l : List IRStmt) (c : Nat)
    (hP : ∀ cee arg, P.getLast? ≠ some (.Dirty cee arg)) :
    ∀ cee arg, (P ++ walkOut l c).getLast? ≠ some (.Dirty cee arg) := by
  induction l using List.reverseRecOn with
  | nil => simpa [walkOut] using hP
  | append_singleton l st ih =>
      intro cee arg
      rw [walkOut_append]
      cases st with
      | NoOp => simpa [walkOut, walkStep] using ih cee arg
      | IMark a len d => simp [walkOut, walkStep, ← List.append_assoc]
      | Store a d => simp [walkOut, walkStep, ← List.append_assoc]
      | Exit g d => simp [walkOut, walkStep, ← List.append_assoc]
      | Other p => simp [walkOut, walkStep, ← List.append_assoc]

theorem copyPreamble_getLast_not_dirty (l : List IRStmt) :
    ∀ cee arg, (copyPreamble l).getLast? ≠ some (.Dirty cee arg) := by
  intro cee arg
  unfold copyPreamble
  rw [List.getLast?_map]
  cases (List.filter (fun st => st.tag != .Ist_NoOp) (preamble l)).getLast? <;> simp

/-! ## Runs of the output -/

theorem toInt32_small (v : Nat) (h : v < 2 ^ 31) : toInt32 v = (v : Int) := by
  unfold toInt32
  have hm : v % 2 ^ 32 = v := Nat.mod_eq_of_lt (by omega)
  rw [hm, if_pos h]

theorem toULong_natCast (v : Nat) (h : v < 2 ^ 64) : toULong (v : Int) = v := by
  unfold toULong ULONG_MOD
  omega

theorem evalExpr_HWord (env : Nat → Nat) (v : Nat) (h : v < 2 ^ 64) :
    evalExpr env (mkIRExpr_HWord v) = v := by
  unfold mkIRExpr_HWord evalExpr HWORD_MOD
  exact Nat.mod_eq_of_lt h

theorem histSum_update (n i : Nat) (f : Nat → Nat) (hi : i < n) (v : Nat) :
    histSum n (Function.update f i v) + f i = histSum n f + v := by
  unfold histSum
  have hmem : i ∈ Finset.range n := Finset.mem_range.mpr hi
  rw [Finset.sum_update_of_mem hmem, Finset.sdiff_singleton_eq_erase,
    ← Finset.add_sum_erase (Finset.range n) f hmem]
  omega

theorem entry_le_histSum (n i : Nat) (f : Nat → Nat) (hi : i < n) : f i ≤ histSum n f := by
  unfold histSum
  exact Finset.single_le_sum (fun _ _ => Nat.zero_le _) (Finset.mem_range.mpr hi)

/-- The preamble copy changes no statistic: a run of it either leaves at a taken Exit of
the preamble or goes on with the rest of the output. -/
theorem run_map_Stmt (PAGE_SIZE : Nat) (env : Nat → Nat) (l : List IRStmt)
    (rest : List OutStmt) (s : Stats) :
    run PAGE_SIZE env ((l.filter (fun st => st.tag != .Ist_NoOp)).map .Stmt ++ rest) s =
      if takesExit env l then some s else run PAGE_SIZE env rest s := by
  induction l with
  | nil => simp [takesExit]
  | cons st tl ih =>
      cases st with
      | Exit g d =>
          have ht : ((IRStmt.Exit g d).tag != IRStmtTag.Ist_NoOp) = true := rfl
          by_cases hg : evalExpr env g = 0 <;>
            simp [List.filter_cons, ht, run, takesExit, hg, ih]
      | NoOp =>
          have ht : (IRStmt.NoOp.tag != IRStmtTag.Ist_NoOp) = false := rfl
          simp [List.filter_cons, ht, takesExit, ih]
      | IMark a len d =>
          have ht : ((IRStmt.IMark a len d).tag != IRStmtTag.Ist_NoOp) = true := rfl
          simp [List.filter_cons, ht, run, takesExit, ih]
      | Store a d =>
          have ht : ((IRStmt.Store a d).tag != IRStmtTag.Ist_NoOp) = true := rfl
          simp [List.filter_cons, ht, run, takesExit, ih]
      | Other q =>
          have ht : ((IRStmt.Other q).tag != IRStmtTag.Ist_NoOp) = true := rfl
          simp [List.filter_cons, ht, run, takesExit, ih]

theorem executed_walkPart (env : Nat → Nat) (l : List IRStmt) :
    walkPart (executed env l) =
      if takesExit env (preamble l) then [] else executed env (walkPart l) := by
  induction l with
  | nil => simp [executed, walkPart, preamble, takesExit]
  | cons st tl ih =>
      cases st with
      | Exit g d =>
          by_cases hg : evalExpr env g = 0
          · simpa [executed, walkPart, preamble, takesExit, hg, IRStmt.tag,
              List.dropWhile_cons, List.takeWhile_cons] using ih
          · simp [executed, walkPart, preamble, takesExit, hg, IRStmt.tag,
              List.dropWhile_cons, List.takeWhile_cons]
      | NoOp =>
          simpa [executed, walkPart, preamble, takesExit, IRStmt.tag,
            List.dropWhile_cons, List.takeWhile_cons] using ih
      | IMark a len d =>
          simp [executed, walkPart, preamble, takesExit, IRStmt.tag,
            List.dropWhile_cons, List.takeWhile_cons]
      | Store a d =>
          simpa [executed, walkPart, preamble, takesExit, IRStmt.tag,
            List.dropWhile_cons, List.takeWhile_cons] using ih
      | Other q =>
          simpa [executed, walkPart, preamble, takesExit, IRStmt.tag,
            List.dropWhile_cons, List.takeWhile_cons] using ih

theorem countTag_IMark_walkPart (l : List IRStmt) :
    countTag .Ist_IMark (walkPart l) = countTag .Ist_IMark l := by
  induction l with
  | nil => rfl
  | cons st tl ih =>
      cases st <;>
        simp_all [walkPart, countTag, IRStmt.tag, List.dropWhile_cons, List.countP_cons]

theorem flush_n_st (env : Nat → Nat) (c : Nat) (s : Stats) (hc : c < 2 ^ 31)
    (hs : s.n_st + c < 2 ^ 64) :
    (add_n_guest_store (toInt32 (evalExpr env (mkIRExpr_HWord c))) s).n_st = s.n_st + c := by
  rw [evalExpr_HWord env c (by omega), toInt32_small c hc]
  unfold add_n_guest_store
  rw [toULong_natCast c (by omega)]
  exact Nat.mod_eq_of_lt (by unfold ULONG_MOD; omega)

theorem add_instr_len_n_st (idx : Int) (s s1 : Stats) (h : add_instr_len idx s = some s1) :
    s1.n_st = s.n_st := by
  unfold add_instr_len at h
  split at h
  · cases h
    rfl
  · cases h

/-- The store counter after a run of the walk over `l` entered with the tally `c`. -/
theorem run_walk_n_st (PAGE_SIZE : Nat) (env : Nat → Nat) (l : List IRStmt) (c : Nat)
    (s s' : Stats) (hc : c + l.length < 2 ^ 31) (hs : s.n_st + c + l.length < 2 ^ 64)
    (hrun : run PAGE_SIZE env (walkOut l c ++ finalFlush (walkCnt l c)) s = some s') :
    s'.n_st = s.n_st + c + countTag .Ist_Store (executed env l) := by
  induction l generalizing c s with
  | nil =>
      simp only [List.length_nil, Nat.add_zero] at hc hs
      by_cases h0 : c = 0
      · subst h0
        simp [walkOut, walkCnt, finalFlush, run] at hrun
        subst hrun
        simp [executed, countTag]
      · simp [walkOut, walkCnt, finalFlush, run, h0, callCollector] at hrun
        subst hrun
        rw [flush_n_st env c s hc hs]
        simp [executed, countTag]
  | cons st rest ih =>
      simp only [List.length_cons] at hc hs
      cases st with
      | NoOp =>
          have := ih c s (by omega) (by omega) (by simpa [walkOut, walkCnt, walkStep] using hrun)
          simpa [executed, countTag, IRStmt.tag] using this
      | Other q =>
          have := ih c s (by omega) (by omega)
            (by simpa [walkOut, walkCnt, walkStep, run] using hrun)
          simpa [executed, countTag, IRStmt.tag] using this
      | IMark a len d =>
          simp only [walkOut, walkCnt, walkStep, List.nil_append, List.cons_append, run,
            callCollector] at hrun
          split at hrun
          · rename_i s1 h1
            have := ih c s1 (by omega) (by rw [add_instr_len_n_st _ _ _ h1]; omega) hrun
            rw [this, add_instr_len_n_st _ _ _ h1]
            simp [executed, countTag, IRStmt.tag]
          · cases hrun
      | Store a d =>
          have hm : (c + 1) % HWORD_MOD = c + 1 := Nat.mod_eq_of_lt (by unfold HWORD_MOD; omega)
          simp only [walkOut, walkCnt, walkStep, List.nil_append, List.cons_append, run,
            callCollector, hm] at hrun
          have := ih (c + 1) (add_mem_access PAGE_SIZE (evalExpr env a) s) (by omega)
            (by simp only [add_mem_access]; omega) hrun
          rw [this]
          simp [executed, countTag, IRStmt.tag, add_mem_access]
          omega
      | Exit g d =>
          simp only [walkOut, walkCnt, walkStep, List.nil_append, List.cons_append, run,
            callCollector] at hrun
          have hf := flush_n_st env c s (by omega) (by omega)
          by_cases hg : evalExpr env g = 0
          · simp only [hg, ne_eq, not_true_eq_false, if_false] at hrun
            have := ih 0 _ (by omega) (by rw [hf]; omega) hrun
            rw [this, hf]
            simp [executed, countTag, IRStmt.tag, hg]
          · simp only [hg, ne_eq, not_false_eq_true, if_true, Option.some.injEq] at hrun
            subst hrun
            rw [hf]
            simp [executed, countTag, IRStmt.tag, hg]

theorem add_instr_len_in_bound (env : Nat → Nat) (len : Nat) (s : Stats)
    (hlen : len < MAX_INSTR_LEN) (hs : histSum MAX_INSTR_LEN s.instr_len + 1 < 2 ^ 64) :
    ∃ s1, add_instr_len (toInt32 (evalExpr env (mkIRExpr_HWord len))) s = some s1 ∧
      histSum MAX_INSTR_LEN s1.instr_len = histSum MAX_INSTR_LEN s.instr_len + 1 ∧
      s1.mem_access = s.mem_access := by
  have h16 : len < 16 := hlen
  rw [evalExpr_HWord env len (by omega), toInt32_small len (by omega)]
  unfold add_instr_len
  rw [toULong_natCast len (by omega), if_pos (show len < max_instr_len from hlen)]
  refine ⟨_, rfl, ?_, rfl⟩
  have hle := entry_le_histSum MAX_INSTR_LEN len s.instr_len hlen
  have hm : (s.instr_len len + 1) % ULONG_MOD = s.instr_len len + 1 :=
    Nat.mod_eq_of_lt (by unfold ULONG_MOD; omega)
  have hu := histSum_update MAX_INSTR_LEN len s.instr_len hlen (s.instr_len len + 1)
  simp only [Int.toNat_natCast, hm]
  omega

theorem add_mem_access_histSum (PAGE_SIZE : Nat) (v : Nat) (s : Stats) (hP : 0 < PAGE_SIZE)
    (hs : histSum PAGE_SIZE s.mem_access + 1 < 2 ^ 64) :
    histSum PAGE_SIZE (add_mem_access PAGE_SIZE v s).mem_access =
      histSum PAGE_SIZE s.mem_access + 1 := by
  have hi : v % PAGE_SIZE < PAGE_SIZE := Nat.mod_lt v hP
  have hle := entry_le_histSum PAGE_SIZE (v % PAGE_SIZE) s.mem_access hi
  have hm : (s.mem_access (v % PAGE_SIZE) + 1) % ULONG_MOD = s.mem_access (v % PAGE_SIZE) + 1 :=
    Nat.mod_eq_of_lt (by unfold ULONG_MOD; omega)
  have hu := histSum_update PAGE_SIZE (v % PAGE_SIZE) s.mem_access hi
    (s.mem_access (v % PAGE_SIZE) + 1)
  simp only [add_mem_access, hm]
  omega

/-- A run of the walk over `l` does not abort when every IMark it executes has a length
below `MAX_INSTR_LEN`; each histogram total grows by the number of IMark, respectively
Store, statements executed. -/
theorem run_walk_hist (PAGE_SIZE : Nat) (env : Nat → Nat) (l : List IRStmt) (c : Nat)
    (s : Stats) (hP : 0 < PAGE_SIZE)
    (hi : histSum MAX_INSTR_LEN s.instr_len + l.length < 2 ^ 64)
    (hmem : histSum PAGE_SIZE s.mem_access + l.length < 2 ^ 64)
    (hlen : ∀ len ∈ imarkLens (executed env l), len < MAX_INSTR_LEN) :
    ∃ s', run PAGE_SIZE env (walkOut l c ++ finalFlush (walkCnt l c)) s = some s' ∧
      histSum MAX_INSTR_LEN s'.instr_len =
        histSum MAX_INSTR_LEN s.instr_len + countTag .Ist_IMark (executed env l) ∧
      histSum PAGE_SIZE s'.mem_access =
        histSum PAGE_SIZE s.mem_access + countTag .Ist_Store (executed env l) := by
  induction l generalizing c s with
  | nil =>
      by_cases h0 : c = 0
      · exact ⟨s, by simp [walkOut, walkCnt, finalFlush, run, h0], by simp [executed, countTag],
          by simp [executed, countTag]⟩
      · exact ⟨add_n_guest_store (toInt32 (evalExpr env (mkIRExpr_HWord c))) s,
          by simp [walkOut, walkCnt, finalFlush, run, h0, callCollector],
          by simp [executed, countTag, add_n_guest_store],
          by simp [executed, countTag, add_n_guest_store]⟩
  | cons st rest ih =>
      simp only [List.length_cons] at hi hmem
      cases st with
      | NoOp =>
          obtain ⟨s', h1, h2, h3⟩ := ih c s (by omega) (by omega)
            (fun len hm => hlen len (by simp [executed, imarkLens, hm]))
          exact ⟨s', by simpa [walkOut, walkCnt, walkStep] using h1,
            by simpa [executed, countTag, IRStmt.tag] using h2,
            by simpa [executed, countTag, IRStmt.tag] using h3⟩
      | Other q =>
          obtain ⟨s', h1, h2, h3⟩ := ih c s (by omega) (by omega)
            (fun len hm => hlen len (by simp [executed, imarkLens, hm]))
          exact ⟨s', by simpa [walkOut, walkCnt, walkStep, run] using h1,
            by simpa [executed, countTag, IRStmt.tag] using h2,
            by simpa [executed, countTag, IRStmt.tag] using h3⟩
      | IMark a len d =>
          obtain ⟨s1, e1, e2, e3⟩ := add_instr_len_in_bound env len s
            (hlen len (by simp [executed, imarkLens])) (by omega)
          obtain ⟨s', h1, h2, h3⟩ := ih c s1 (by omega) (by rw [e3]; omega)
            (fun len hm => hlen len (by simp [executed, imarkLens, hm]))
          refine ⟨s', ?_, ?_, ?_⟩
          · simp only [walkOut, walkCnt, walkStep, List.nil_append, List.cons_append, run,
              callCollector, e1]
            exact h1
          · rw [h2, e2]
            simp [executed, countTag, IRStmt.tag]
            omega
          · rw [h3, e3]
            simp [executed, countTag, IRStmt.tag]
      | Store a d =>
          have e2 := add_mem_access_histSum PAGE_SIZE (evalExpr env a) s hP (by omega)
          obtain ⟨s', h1, h2, h3⟩ := ih ((c + 1) % HWORD_MOD)
            (add_mem_access PAGE_SIZE (evalExpr env a) s)
            (by simp only [add_mem_access]; omega) (by rw [e2]; omega)
            (fun len hm => hlen len (by simp [executed, imarkLens, hm]))
          refine ⟨s', ?_, ?_, ?_⟩
          · simp only [walkOut, walkCnt, walkStep, List.nil_append, List.cons_append, run,
              callCollector]
            exact h1
          · rw [h2]
            simp [executed, countTag, IRStmt.tag, add_mem_access]
          · rw [h3, e2]
            simp [executed, countTag, IRStmt.tag]
            omega
      | Exit g d =>
          by_cases hg : evalExpr env g = 0
          · obtain ⟨s', h1, h2, h3⟩ := ih 0
              (add_n_guest_store (toInt32 (evalExpr env (mkIRExpr_HWord c))) s)
              (by simp only [add_n_guest_store]; omega)
              (by simp only [add_n_guest_store]; omega)
              (fun len hm => hlen len (by simp [executed, imarkLens, hg, hm]))
            refine ⟨s', ?_, ?_, ?_⟩
            · simp only [walkOut, walkCnt, walkStep, List.nil_append, List.cons_append, run,
                callCollector, hg, ne_eq, not_true_eq_false, if_false]
              exact h1
            · rw [h2]
              simp [executed, countTag, IRStmt.tag, hg, add_n_guest_store]
            · rw [h3]
              simp [executed, countTag, IRStmt.tag, hg, add_n_guest_store]
          · refine ⟨add_n_guest_store (toInt32 (evalExpr env (mkIRExpr_HWord c))) s, ?_, ?_, ?_⟩
            · simp only [walkOut, walkCnt, walkStep, List.nil_append, List.cons_append, run,
                callCollector, hg, ne_eq, not_false_eq_true, if_true]
            · simp [executed, countTag, IRStmt.tag, hg, add_n_guest_store]
            · simp [executed, countTag, IRStmt.tag, hg, add_n_guest_store]

theorem mem_imarkLens (l : List IRStmt) (len : Nat) :
    len ∈ imarkLens l ↔ ∃ a d, IRStmt.IMark a len d ∈ l := by
  induction l with
  | nil => simp [imarkLens]
  | cons st rest ih =>
      cases st with
      | IMark a0 len0 d0 =>
          simp only [imarkLens, List.mem_cons, ih, IRStmt.IMark.injEq]
          constructor
          · rintro (h | ⟨a, d, h⟩)
            · exact ⟨a0, d0, Or.inl ⟨rfl, h, rfl⟩⟩
            · exact ⟨a, d, Or.inr h⟩
          · rintro ⟨a, d, h | h⟩
            · exact Or.inl h.2.1
            · exact Or.inr ⟨a, d, h⟩
      | NoOp => simp [imarkLens, ih]
      | Store a d => simp [imarkLens, ih]
      | Exit g d => simp [imarkLens, ih]
      | Other q => simp [imarkLens, ih]

theorem executed_subset (env : Nat → Nat) (l : List IRStmt) :
    ∀ st ∈ executed env l, st ∈ l := by
  induction l with
  | nil => simp [executed]
  | cons x rest ih =>
      intro st hst
      cases x with
      | Exit g d =>
          by_cases hg : evalExpr env g = 0
          · simp only [executed, hg, ne_eq, not_true_eq_false, if_false, List.mem_cons] at hst
            rcases hst with h | h
            · exact List.mem_cons.mpr (Or.inl h)
            · exact List.mem_cons.mpr (Or.inr (ih st h))
          · simp only [executed, hg, ne_eq, not_false_eq_true, if_true,
              List.mem_singleton] at hst
            exact List.mem_cons.mpr (Or.inl hst)
      | NoOp =>
          simp only [executed, List.mem_cons] at hst
          rcases hst with h | h
          · exact List.mem_cons.mpr (Or.inl h)
          · exact List.mem_cons.mpr (Or.inr (ih st h))
      | IMark a len d =>
          simp only [executed, List.mem_cons] at hst
          rcases hst with h | h
          · exact List.mem_cons.mpr (Or.inl h)
          · exact List.mem_cons.mpr (Or.inr (ih st h))
      | Store a d =>
          simp only [executed, List.mem_cons] at hst
          rcases hst with h | h
          · exact List.mem_cons.mpr (Or.inl h)
          · exact List.mem_cons.mpr (Or.inr (ih st h))
      | Other q =>
          simp only [executed, List.mem_cons] at hst
          rcases hst with h | h
          · exact List.mem_cons.mpr (Or.inl h)
          · exact List.mem_cons.mpr (Or.inr (ih st h))

theorem imarkLens_subset (l l' : List IRStmt) (h : ∀ st ∈ l, st ∈ l') :
    ∀ len ∈ imarkLens l, len ∈ imarkLens l' := by
  intro len hl
  obtain ⟨a, d, hm⟩ := (mem_imarkLens l len).mp hl
  exact (mem_imarkLens l' len).mpr ⟨a, d, h _ hm⟩

theorem walkPart_subset (l : List IRStmt) : ∀ st ∈ walkPart l, st ∈ l :=
  fun _ h => (List.dropWhile_sublist _).subset h

/-- A call of add_instr_len with a length below `MAX_INSTR_LEN` passes the assertion. -/
theorem add_instr_len_some (env : Nat → Nat) (len : Nat) (s : Stats)
    (hlen : len < MAX_INSTR_LEN) :
    ∃ s1, add_instr_len (toInt32 (evalExpr env (mkIRExpr_HWord len))) s = some s1 := by
  have h16 : len < 16 := hlen
  rw [evalExpr_HWord env len (by omega), toInt32_small len (by omega)]
  unfold add_instr_len
  rw [toULong_natCast len (by omega), if_pos (show len < max_instr_len from hlen)]
  exact ⟨_, rfl⟩

/-- A run of the walk over `l` does not abort when every IMark it executes has a length
below `MAX_INSTR_LEN`. -/
theorem run_walk_some (PAGE_SIZE : Nat) (env : Nat → Nat) (l : List IRStmt) (c : Nat)
    (s : Stats) (hlen : ∀ len ∈ imarkLens (executed env l), len < MAX_INSTR_LEN) :
    ∃ s', run PAGE_SIZE env (walkOut l c ++ finalFlush (walkCnt l c)) s = some s' := by
  induction l generalizing c s with
  | nil =>
      by_cases h0 : c = 0
      · exact ⟨s, by simp [walkOut, walkCnt, finalFlush, run, h0]⟩
      · exact ⟨add_n_guest_store (toInt32 (evalExpr env (mkIRExpr_HWord c))) s,
          by simp [walkOut, walkCnt, finalFlush, run, h0, callCollector]⟩
  | cons st rest ih =>
      cases st with
      | NoOp =>
          obtain ⟨s', h1⟩ := ih c s (fun len hm => hlen len (by simp [executed, imarkLens, hm]))
          exact ⟨s', by simpa [walkOut, walkCnt, walkStep] using h1⟩
      | Other q =>
          obtain ⟨s', h1⟩ := ih c s (fun len hm => hlen len (by simp [executed, imarkLens, hm]))
          exact ⟨s', by simpa [walkOut, walkCnt, walkStep, run] using h1⟩
      | IMark a len d =>
          obtain ⟨s1, e1⟩ := add_instr_len_some env len s (hlen len (by simp [executed, imarkLens]))
          obtain ⟨s', h1⟩ := ih c s1 (fun len hm => hlen len (by simp [executed, imarkLens, hm]))
          refine ⟨s', ?_⟩
          simp only [walkOut, walkCnt, walkStep, List.nil_append, List.cons_append, run,
            callCollector, e1]
          exact h1
      | Store a d =>
          obtain ⟨s', h1⟩ := ih ((c + 1) % HWORD_MOD)
            (add_mem_access PAGE_SIZE (evalExpr env a) s)
            (fun len hm => hlen len (by simp [executed, imarkLens, hm]))
          refine ⟨s', ?_⟩
          simp only [walkOut, walkCnt, walkStep, List.nil_append, List.cons_append, run,
            callCollector]
          exact h1
      | Exit g d =>
          by_cases hg : evalExpr env g = 0
          · obtain ⟨s', h1⟩ := ih 0
              (add_n_guest_store (toInt32 (evalExpr env (mkIRExpr_HWord c))) s)
              (fun len hm => hlen len (by simp [executed, imarkLens, hg, hm]))
            refine ⟨s', ?_⟩
            simp only [walkOut, walkCnt, walkStep, List.nil_append, List.cons_append, run,
              callCollector, hg, ne_eq, not_true_eq_false, if_false]
            exact h1
          · refine ⟨add_n_guest_store (toInt32 (evalExpr env (mkIRExpr_HWord c))) s, ?_⟩
            simp only [walkOut, walkCnt, walkStep, List.nil_append, List.cons_append, run,
              callCollector, hg, ne_eq, not_false_eq_true, if_true]

/-! ## Index 0 of the instruction-length histogram -/

theorem toInt32_range (v : Nat) : -2 ^ 31 ≤ toInt32 v ∧ toInt32 v < 2 ^ 31 := by
  unfold toInt32
  split <;> omega

theorem toInt32_ne_zero (v : Nat) (h0 : 0 < v) (h : v < 2 ^ 32) : toInt32 v ≠ 0 := by
  unfold toInt32
  have hm : v % 2 ^ 32 = v := Nat.mod_eq_of_lt h
  rw [hm]
  split <;> omega

theorem add_instr_len_entry_zero (idx : Int) (s s1 : Stats)
    (hr : -2 ^ 31 ≤ idx ∧ idx < 2 ^ 31) (hne : idx ≠ 0) (h : add_instr_len idx s = some s1) :
    s1.instr_len 0 = s.instr_len 0 := by
  unfold add_instr_len at h
  split at h
  · rename_i hlt
    have hpos : 0 < idx := by
      unfold toULong ULONG_MOD max_instr_len MAX_INSTR_LEN at hlt
      omega
    have hj : (0 : Nat) ≠ idx.toNat := by omega
    cases h
    simp [Function.update_noteq hj]
  · cases h

/-- A run keeps entry 0 of the instruction-length histogram at zero when no
add_instr_len call of the output passes the int value 0. -/
theorem run_instr_len_zero (PAGE_SIZE : Nat) (env : Nat → Nat) (out : List OutStmt)
    (s s' : Stats)
    (hargs : ∀ arg ∈ callArgs .add_instr_len out, toInt32 (evalExpr env arg) ≠ 0)
    (h0 : s.instr_len 0 = 0) (hrun : run PAGE_SIZE env out s = some s') :
    s'.instr_len 0 = 0 := by
  induction out generalizing s with
  | nil =>
      simp only [run, Option.some.injEq] at hrun
      subst hrun
      exact h0
  | cons x rest ih =>
      cases x with
      | Dirty cee arg =>
          cases cee with
          | add_instr_len =>
              simp only [run, callCollector] at hrun
              split at hrun
              · rename_i s1 h1
                have hne := hargs arg (by simp [callArgs])
                have h10 := add_instr_len_entry_zero _ s s1 (toInt32_range _) hne h1
                exact ih s1 (fun a ha => hargs a (by simp [callArgs, ha]))
                  (by rw [h10]; exact h0) hrun
              · cases hrun
          | add_mem_access =>
              simp only [run, callCollector] at hrun
              exact ih _ (fun a ha => hargs a (by simpa [callArgs] using ha))
                (by simpa [add_mem_access] using h0) hrun
          | add_n_guest_store =>
              simp only [run, callCollector] at hrun
              exact ih _ (fun a ha => hargs a (by simpa [callArgs] using ha))
                (by simpa [add_n_guest_store] using h0) hrun
      | Stmt st =>
          have hr : ∀ a ∈ callArgs .add_instr_len rest,
              toInt32 (evalExpr env a) ≠ 0 :=
            fun a ha => hargs a (by simpa [callArgs] using ha)
          cases st with
          | Exit g d =>
              simp only [run] at hrun
              split at hrun
              · simp only [Option.some.injEq] at hrun
                subst hrun
                exact h0
              · exact ih s hr h0 hrun
          | NoOp => exact ih s hr h0 (by simpa [run] using hrun)
          | IMark a len d => exact ih s hr h0 (by simpa [run] using hrun)
          | Store a d => exact ih s hr h0 (by simpa [run] using hrun)
          | Other q => exact ih s hr h0 (by simpa [run] using hrun)

theorem callArgs_instr_len_fb_instrument (sbIn : List IRStmt) :
    callArgs .add_instr_len (fb_instrument sbIn) = (imarkLens sbIn).map mkIRExpr_HWord := by
  rw [fb_instrument_eq, callArgs_append, callArgs_append, callArgs_instr_len_walkOut]
  have hp : callArgs .add_instr_len (copyPreamble sbIn) = [] := callArgs_map_Stmt _ _
  have hf : callArgs .add_instr_len (finalFlush (walkCnt (walkPart sbIn) 0)) = [] := by
    unfold finalFlush
    split <;> simp [callArgs]
  rw [hp, hf]
  conv_rhs => rw [← preamble_append_walkPart sbIn, imarkLens_append, imarkLens_preamble]
  simp

/-- A run of an instrumented block does not abort, whatever the store it starts from,
when every IMark of the block has a length below `MAX_INSTR_LEN`. -/
theorem run_fb_instrument_some (PAGE_SIZE : Nat) (env : Nat → Nat) (sbIn : List IRStmt)
    (s : Stats) (hb : ∀ len ∈ imarkLens sbIn, len < MAX_INSTR_LEN) :
    ∃ s', run PAGE_SIZE env (fb_instrument sbIn) s = some s' := by
  rw [fb_instrument_eq, List.append_assoc]
  unfold copyPreamble
  rw [run_map_Stmt]
  by_cases ht : takesExit env (preamble sbIn) = true
  · exact ⟨s, by rw [if_pos ht]⟩
  · rw [if_neg ht]
    apply run_walk_some
    intro len hl
    exact hb len
      (imarkLens_subset _ _ (fun st hst => walkPart_subset _ _ (executed_subset _ _ _ hst))
        len hl)

theorem runBlocks_instr_len_zero (PAGE_SIZE : Nat) (runs : List ((Nat → Nat) × List IRStmt))
    (s s' : Stats)
    (hne : ∀ r ∈ runs, ∀ len ∈ imarkLens r.2, 0 < len ∧ len < 2 ^ 32)
    (h0 : s.instr_len 0 = 0) (hrun : runBlocks PAGE_SIZE runs s = some s') :
    s'.instr_len 0 = 0 := by
  induction runs generalizing s with
  | nil =>
      simp only [runBlocks, Option.some.injEq] at hrun
      subst hrun
      exact h0
  | cons r rest ih =>
      obtain ⟨env, sbIn⟩ := r
      simp only [runBlocks] at hrun
      split at hrun
      · rename_i s1 h1
        have hargs : ∀ arg ∈ callArgs .add_instr_len (fb_instrument sbIn),
            toInt32 (evalExpr env arg) ≠ 0 := by
          intro arg harg
          rw [callArgs_instr_len_fb_instrument, List.mem_map] at harg
          obtain ⟨len, hlen, rfl⟩ := harg
          have hl := hne (env, sbIn) (by simp) len hlen
          rw [evalExpr_HWord env len (by omega)]
          exact toInt32_ne_zero len hl.1 hl.2
        have h10 := run_instr_len_zero PAGE_SIZE env _ s s1 hargs h0 h1
        exact ih s1 (fun r hr => hne r (List.mem_cons_of_mem _ hr)) h10 hrun
      · cases hrun

theorem runBlocks_some (PAGE_SIZE : Nat) (runs : List ((Nat → Nat) × List IRStmt))
    (s : Stats) (hb : ∀ r ∈ runs, ∀ len ∈ imarkLens r.2, len < MAX_INSTR_LEN) :
    ∃ s', runBlocks PAGE_SIZE runs s = some s' := by
  induction runs generalizing s with
  | nil => exact ⟨s, rfl⟩
  | cons r rest ih =>
      obtain ⟨env, sbIn⟩ := r
      obtain ⟨s1, h1⟩ := run_fb_instrument_some PAGE_SIZE env sbIn s
        (hb (env, sbIn) (by simp))
      obtain ⟨s', h2⟩ := ih s1 (fun r hr => hb r (List.mem_cons_of_mem _ hr))
      exact ⟨s', by simp only [runBlocks, h1]; exact h2⟩

/-! ## The tables of `fb_fini` -/

theorem lenRows_append (a b : List UMsg) : lenRows (a ++ b) = lenRows a ++ lenRows b := by
  induction a with
  | nil => rfl
  | cons x rest ih => cases x <;> simp [lenRows, ih]

theorem memRows_append (a b : List UMsg) : memRows (a ++ b) = memRows a ++ memRows b := by
  induction a with
  | nil => rfl
  | cons x rest ih => cases x <;> simp [memRows, ih]

theorem lenRows_map_lenRow (l : List Nat) (f : Nat → Nat) :
    lenRows (l.map (fun i => .lenRow i (f i))) = l.map (fun i => (i, f i)) := by
  induction l with
  | nil => rfl
  | cons x rest ih => simp [lenRows, ih]

theorem lenRows_map_memRow (l : List Nat) (f : Nat → Nat) :
    lenRows (l.map (fun i => .memRow i (f i))) = [] := by
  induction l with
  | nil => rfl
  | cons x rest ih => simp [lenRows, ih]

theorem memRows_map_memRow (l : List Nat) (f : Nat → Nat) :
    memRows (l.map (fun i => .memRow i (f i))) = l.map (fun i => (i, f i)) := by
  induction l with
  | nil => rfl
  | cons x rest ih => simp [memRows, ih]

theorem memRows_map_lenRow (l : List Nat) (f : Nat → Nat) :
    memRows (l.map (fun i => .lenRow i (f i))) = [] := by
  induction l with
  | nil => rfl
  | cons x rest ih => simp [memRows, ih]

theorem lenRows_fb_fini (PAGE_SIZE : Nat) (exitcode : Int) (s : Stats) :
    lenRows (fb_fini PAGE_SIZE exitcode s).1 =
      (List.range' 1 (max_instr_len - 1)).map (fun i => (i, s.instr_len i)) := by
  unfold fb_fini
  simp only [lenRows_append, lenRows_map_lenRow, lenRows_map_memRow]
  simp [lenRows]

theorem memRows_fb_fini (PAGE_SIZE : Nat) (exitcode : Int) (s : Stats) :
    memRows (fb_fini PAGE_SIZE exitcode s).1 =
      ((List.range PAGE_SIZE).filter (fun i => s.mem_access i != 0)).map
        (fun i => (i, s.mem_access i)) := by
  unfold fb_fini
  simp only [memRows_append, memRows_map_lenRow, memRows_map_memRow]
  simp [memRows]

/-! ## NoOp statements and the preamble -/

theorem tag_eq_NoOp (st : IRStmt) : st.tag = .Ist_NoOp ↔ st = .NoOp := by
  cases st <;> simp [IRStmt.tag]

theorem dropNoOps_eq_filter (l : List IRStmt) :
    dropNoOps l = l.filter (fun st => decide (st ≠ .NoOp)) := by
  unfold dropNoOps
  apply List.filter_congr
  intro st _
  cases st <;> simp [IRStmt.tag]

theorem walkOut_dropNoOps (l : List IRStmt) (c : Nat) :
    walkOut (dropNoOps l) c = walkOut l c ∧ walkCnt (dropNoOps l) c = walkCnt l c := by
  induction l generalizing c with
  | nil => exact ⟨rfl, rfl⟩
  | cons st rest ih =>
      cases st with
      | NoOp =>
          have ht : (IRStmt.NoOp.tag != IRStmtTag.Ist_NoOp) = false := rfl
          simpa [dropNoOps, List.filter_cons, ht, walkOut, walkCnt, walkStep] using ih c
      | IMark a len d =>
          have ht : ((IRStmt.IMark a len d).tag != IRStmtTag.Ist_NoOp) = true := rfl
          have := ih c
          simp only [dropNoOps] at this
          simp [dropNoOps, List.filter_cons, ht, walkOut, walkCnt, walkStep, this]
      | Store a d =>
          have ht : ((IRStmt.Store a d).tag != IRStmtTag.Ist_NoOp) = true := rfl
          have := ih ((c + 1) % HWORD_MOD)
          simp only [dropNoOps] at this
          simp [dropNoOps, List.filter_cons, ht, walkOut, walkCnt, walkStep, this]
      | Exit g d =>
          have ht : ((IRStmt.Exit g d).tag != IRStmtTag.Ist_NoOp) = true := rfl
          have := ih 0
          simp only [dropNoOps] at this
          simp [dropNoOps, List.filter_cons, ht, walkOut, walkCnt, walkStep, this]
      | Other q =>
          have ht : ((IRStmt.Other q).tag != IRStmtTag.Ist_NoOp) = true := rfl
          have := ih c
          simp only [dropNoOps] at this
          simp [dropNoOps, List.filter_cons, ht, walkOut, walkCnt, walkStep, this]

theorem preamble_dropNoOps (l : List IRStmt) :
    preamble (dropNoOps l) = dropNoOps (preamble l) ∧
      walkPart (dropNoOps l) = dropNoOps (walkPart l) := by
  induction l with
  | nil => exact ⟨rfl, rfl⟩
  | cons st rest ih =>
      obtain ⟨ih1, ih2⟩ := ih
      simp only [preamble, walkPart, dropNoOps] at ih1 ih2
      cases st with
      | NoOp =>
          have ht : (IRStmt.NoOp.tag != IRStmtTag.Ist_NoOp) = false := rfl
          have hi : (IRStmt.NoOp.tag != IRStmtTag.Ist_IMark) = true := rfl
          simp [preamble, walkPart, dropNoOps, List.filter_cons, List.takeWhile_cons,
            List.dropWhile_cons, ht, hi, ih1, ih2]
      | IMark a len d =>
          have ht : ((IRStmt.IMark a len d).tag != IRStmtTag.Ist_NoOp) = true := rfl
          have hi : ((IRStmt.IMark a len d).tag != IRStmtTag.Ist_IMark) = false := rfl
          simp [preamble, walkPart, dropNoOps, List.filter_cons, List.takeWhile_cons,
            List.dropWhile_cons, ht, hi]
      | Store a d =>
          have ht : ((IRStmt.Store a d).tag != IRStmtTag.Ist_NoOp) = true := rfl
          have hi : ((IRStmt.Store a d).tag != IRStmtTag.Ist_IMark) = true := rfl
          simp [preamble, walkPart, dropNoOps, List.filter_cons, List.takeWhile_cons,
            List.dropWhile_cons, ht, hi, ih1, ih2]
      | Exit g d =>
          have ht : ((IRStmt.Exit g d).tag != IRStmtTag.Ist_NoOp) = true := rfl
          have hi : ((IRStmt.Exit g d).tag != IRStmtTag.Ist_IMark) = true := rfl
          simp [preamble, walkPart, dropNoOps, List.filter_cons, List.takeWhile_cons,
            List.dropWhile_cons, ht, hi, ih1, ih2]
      | Other q =>
          have ht : ((IRStmt.Other q).tag != IRStmtTag.Ist_NoOp) = true := rfl
          have hi : ((IRStmt.Other q).tag != IRStmtTag.Ist_IMark) = true := rfl
          simp [preamble, walkPart, dropNoOps, List.filter_cons, List.takeWhile_cons,
            List.dropWhile_cons, ht, hi, ih1, ih2]

theorem dropNoOps_idem (l : List IRStmt) : dropNoOps (dropNoOps l) = dropNoOps l := by
  simp [dropNoOps, List.filter_filter]

/-- The output depends on the input only through its statements other than NoOp. -/
theorem fb_instrument_dropNoOps (l : List IRStmt) :
    fb_instrument (dropNoOps l) = fb_instrument l := by
  rw [fb_instrument_eq, fb_instrument_eq]
  unfold copyPreamble
  have hd : ∀ x : List IRStmt,
      List.filter (fun st => st.tag != IRStmtTag.Ist_NoOp) x = dropNoOps x := fun _ => rfl
  rw [hd, hd, (preamble_dropNoOps l).1, (preamble_dropNoOps l).2, dropNoOps_idem,
    (walkOut_dropNoOps (walkPart l) 0).1, (walkOut_dropNoOps (walkPart l) 0).2]

theorem origStmts_fb_instrument (sbIn : List IRStmt) :
    origStmts (fb_instrument sbIn) = dropNoOps sbIn := by
  rw [fb_instrument_eq, origStmts_append, origStmts_emitted, origStmts_finalFlush,
    List.append_nil]

/-- The statements ahead of the first IMark are copied, NoOp apart, and change nothing
in the rest of the output. -/
theorem fb_instrument_preamble_append (pre X : List IRStmt)
    (hpre : ∀ st ∈ pre, st.tag ≠ .Ist_IMark) :
    fb_instrument (pre ++ X) = (dropNoOps pre).map .Stmt ++ fb_instrument X := by
  have hp : ∀ st ∈ pre, (st.tag != IRStmtTag.Ist_IMark) = true := by
    intro st hst
    simpa using hpre st hst
  have h1 : preamble (pre ++ X) = pre ++ preamble X := by
    unfold preamble
    exact List.takeWhile_append_of_pos hp
  have h2 : walkPart (pre ++ X) = walkPart X := by
    unfold walkPart
    exact List.dropWhile_append_of_pos hp
  rw [fb_instrument_eq, fb_instrument_eq, h2]
  unfold copyPreamble
  rw [h1]
  simp [dropNoOps]

/-! ## The claims -/

/-- C1 as stated fails: a Store ahead of the first IMark is executed but never counted, so
after the run the store counter is below the number of Store statements executed. -/
theorem n_st_misses_preamble_store :
    (run 4096 (fun _ => 0) (fb_instrument [.Store (.Const 8) (.Const 0), .IMark 0 4 0])
        Stats.zero).map (fun s => s.n_st) = some 0 ∧
      countTag .Ist_Store
        (executed (fun _ => 0) [.Store (.Const 8) (.Const 0), .IMark 0 4 0]) = 1 := by
  decide

/-- C1, amended: for a block of fewer than 2^31 statements, a run of the instrumented
block from the zero-initialised store that does not abort ends with the store counter
equal to the number of executed Store statements located after the first IMark; the run
does not abort when every executed IMark has a length below `MAX_INSTR_LEN`. -/
theorem n_st_counts_walk_stores (PAGE_SIZE : Nat) (env : Nat → Nat) (sbIn : List IRStmt)
    (hlen : sbIn.length < 2 ^ 31) :
    (∀ s', run PAGE_SIZE env (fb_instrument sbIn) Stats.zero = some s' →
        s'.n_st = countTag .Ist_Store (walkPart (executed env sbIn))) ∧
      ((∀ len ∈ imarkLens (executed env sbIn), len < MAX_INSTR_LEN) →
        ∃ s', run PAGE_SIZE env (fb_instrument sbIn) Stats.zero = some s') := by
  have hw : (walkPart sbIn).length < 2 ^ 31 := lt_of_le_of_lt (walkPart_length_le sbIn) hlen
  have hrun : run PAGE_SIZE env (fb_instrument sbIn) Stats.zero =
      if takesExit env (preamble sbIn) then some Stats.zero
      else run PAGE_SIZE env
        (walkOut (walkPart sbIn) 0 ++ finalFlush (walkCnt (walkPart sbIn) 0)) Stats.zero := by
    rw [fb_instrument_eq, List.append_assoc]
    unfold copyPreamble
    rw [run_map_Stmt]
  rw [hrun, executed_walkPart]
  by_cases ht : takesExit env (preamble sbIn) = true
  · simp only [ht, if_true]
    refine ⟨?_, fun _ => ⟨_, rfl⟩⟩
    intro s' h
    cases h
    simp [Stats.zero, countTag]
  · simp only [ht, if_false]
    constructor
    · intro s' h
      have := run_walk_n_st PAGE_SIZE env (walkPart sbIn) 0 Stats.zero s'
        (by omega) (by simp only [Stats.zero]; omega) h
      simpa [Stats.zero] using this
    · intro hb
      apply run_walk_some
      intro len hl
      apply hb
      have he : walkPart (executed env sbIn) = executed env (walkPart sbIn) := by
        rw [executed_walkPart, if_neg ht]
      rw [← he] at hl
      exact imarkLens_subset _ _ (walkPart_subset _) len hl

/-- Witness of C1 (amended): the block with a mid-block exit of the specification, run
with the exit not taken. -/
theorem n_st_counts_walk_stores_witness :
    ∃ s', run 4096 (fun _ => 0)
        (fb_instrument [.IMark 0 4 0, .Store (.RdTmp 1) (.Const 0), .IMark 4 4 0,
          .Exit (.RdTmp 2) 64, .IMark 8 2 0, .Store (.RdTmp 3) (.Const 0)]) Stats.zero =
        some s' ∧
      s'.n_st = 2 :=
  have t := n_st_counts_walk_stores 4096 (fun _ => 0) [.IMark 0 4 0,
    .Store (.RdTmp 1) (.Const 0), .IMark 4 4 0, .Exit (.RdTmp 2) 64, .IMark 8 2 0,
    .Store (.RdTmp 3) (.Const 0)] (by decide)
  (t.2 (by decide)).elim (fun s' h => ⟨s', h, t.1 s' h⟩)

/-- C2 as stated fails: a Store ahead of the first IMark is flushed by no call, so the
flushed tallies sum to less than the number of Store statements of the block. -/
theorem flushed_sum_misses_preamble_store :
    flushSum (fun _ => 0)
        (fb_instrument [.Store (.Const 8) (.Const 0), .IMark 0 4 0, .Exit (.Const 0) 64]) ≠
      countTag .Ist_Store [.Store (.Const 8) (.Const 0), .IMark 0 4 0, .Exit (.Const 0) 64] := by
  decide

/-- C2, amended: for a block of fewer than 2^31 statements, the arguments of the
add_n_guest_store calls of the output sum to the number of Store statements from the
first IMark on; there is one such call for each Exit from the first IMark on, plus the
final flush when a Store follows the last of them. -/
theorem flushed_sum_eq_walk_stores (env : Nat → Nat) (sbIn : List IRStmt)
    (hlen : sbIn.length < 2 ^ 31) :
    flushSum env (fb_instrument sbIn) = countTag .Ist_Store (walkPart sbIn) ∧
      (callArgs .add_n_guest_store (fb_instrument sbIn)).length =
        countTag .Ist_Exit (walkPart sbIn) +
          (if countTag .Ist_Store (sinceLastExit (walkPart sbIn)) = 0 then 0 else 1) := by
  have hw : (walkPart sbIn).length < 2 ^ 31 := lt_of_le_of_lt (walkPart_length_le sbIn) hlen
  constructor
  · rw [fb_instrument_eq, List.append_assoc, flushSum_append, flushSum_copyPreamble,
      flushSum_walkOut env (walkPart sbIn) 0 (by omega)]
    simp
  · have ht := trailing_lt sbIn hlen
    have hm : countTag .Ist_Store (sinceLastExit (walkPart sbIn)) % HWORD_MOD =
        countTag .Ist_Store (sinceLastExit (walkPart sbIn)) :=
      Nat.mod_eq_of_lt (by unfold HWORD_MOD; omega)
    rw [fb_instrument_eq, callArgs_append, callArgs_append, List.length_append,
      List.length_append, callArgs_store_walkOut_length, walkCnt_zero, hm]
    have hp : callArgs .add_n_guest_store (copyPreamble sbIn) = [] := callArgs_map_Stmt _ _
    rw [hp]
    by_cases h0 : countTag .Ist_Store (sinceLastExit (walkPart sbIn)) = 0 <;>
      simp [finalFlush, h0, callArgs]

/-- Witness of C2 (amended): the block with a mid-block exit of the specification. -/
theorem flushed_sum_eq_walk_stores_witness :
    flushSum (fun _ => 0)
        (fb_instrument [.IMark 0 4 0, .Store (.RdTmp 1) (.Const 0), .IMark 4 4 0,
          .Exit (.RdTmp 2) 64, .IMark 8 2 0, .Store (.RdTmp 3) (.Const 0)]) =
      countTag .Ist_Store (walkPart [.IMark 0 4 0, .Store (.RdTmp 1) (.Const 0), .IMark 4 4 0,
          .Exit (.RdTmp 2) 64, .IMark 8 2 0, .Store (.RdTmp 3) (.Const 0)]) ∧
      (callArgs .add_n_guest_store
        (fb_instrument [.IMark 0 4 0, .Store (.RdTmp 1) (.Const 0), .IMark 4 4 0,
          .Exit (.RdTmp 2) 64, .IMark 8 2 0, .Store (.RdTmp 3) (.Const 0)])).length =
        countTag .Ist_Exit (walkPart [.IMark 0 4 0, .Store (.RdTmp 1) (.Const 0), .IMark 4 4 0,
          .Exit (.RdTmp 2) 64, .IMark 8 2 0, .Store (.RdTmp 3) (.Const 0)]) +
          (if countTag .Ist_Store (sinceLastExit (walkPart [.IMark 0 4 0,
            .Store (.RdTmp 1) (.Const 0), .IMark 4 4 0, .Exit (.RdTmp 2) 64, .IMark 8 2 0,
            .Store (.RdTmp 3) (.Const 0)])) = 0 then 0 else 1) :=
  flushed_sum_eq_walk_stores (fun _ => 0) _ (by decide)

/-- C3: the arguments of the add_instr_len calls of the output, in output order, are
the lengths of the IMark statements of the input, in input order; so there are
exactly as many such calls as the input has IMark statements. -/
theorem instr_len_calls_match_imarks (sbIn : List IRStmt) :
    callArgs .add_instr_len (fb_instrument sbIn) = (imarkLens sbIn).map mkIRExpr_HWord ∧
      (callArgs .add_instr_len (fb_instrument sbIn)).length = countTag .Ist_IMark sbIn := by
  have h : callArgs .add_instr_len (fb_instrument sbIn) =
      (imarkLens sbIn).map mkIRExpr_HWord := by
    rw [fb_instrument_eq, callArgs_append, callArgs_append, callArgs_instr_len_walkOut]
    have hp : callArgs .add_instr_len (copyPreamble sbIn) = [] := callArgs_map_Stmt _ _
    have hf : callArgs .add_instr_len (finalFlush (walkCnt (walkPart sbIn) 0)) = [] := by
      unfold finalFlush
      split <;> simp [callArgs]
    rw [hp, hf]
    conv_rhs => rw [← preamble_append_walkPart sbIn, imarkLens_append, imarkLens_preamble]
    simp
  refine ⟨h, ?_⟩
  rw [h, List.length_map, imarkLens_length]

/-- C4 as stated fails: with the inserted calls deleted, the output for a block holding
a NoOp is not the input sequence. -/
theorem orig_stmts_not_input :
    origStmts (fb_instrument [.IMark 0 4 0, .NoOp, .Store (.Const 8) (.Const 0)]) ≠
      [.IMark 0 4 0, .NoOp, .Store (.Const 8) (.Const 0)] := by
  decide

/-- C4, amended: deleting the inserted collector calls from the output yields the input
statement sequence with its NoOp statements removed; every other statement appears
once, unchanged, in its original order. -/
theorem orig_stmts_eq_dropNoOps (sbIn : List IRStmt) :
    origStmts (fb_instrument sbIn) = dropNoOps sbIn := by
  rw [fb_instrument_eq, origStmts_append, origStmts_append, origStmts_walkOut,
    origStmts_finalFlush]
  unfold copyPreamble
  rw [origStmts_map_Stmt]
  conv_rhs => rw [← preamble_append_walkPart sbIn, dropNoOps_append]
  simp [dropNoOps]

/-- C5 as stated fails: a block without IMark that holds a NoOp is not returned
statement for statement. -/
theorem no_imark_output_not_input :
    (∀ st ∈ [IRStmt.NoOp, IRStmt.Other 7], st.tag ≠ .Ist_IMark) ∧
      fb_instrument [.NoOp, .Other 7] ≠ [.NoOp, .Other 7].map .Stmt := by
  decide

/-- C5, amended: for a block without IMark the output holds no collector call and is
the input statement sequence with its NoOp statements removed; it is the input
sequence itself when the block has no NoOp. -/
theorem no_imark_copies_block (sbIn : List IRStmt)
    (h : ∀ st ∈ sbIn, st.tag ≠ .Ist_IMark) :
    fb_instrument sbIn = (dropNoOps sbIn).map .Stmt ∧
      (∀ cee, callArgs cee (fb_instrument sbIn) = []) ∧
      ((∀ st ∈ sbIn, st.tag ≠ .Ist_NoOp) → fb_instrument sbIn = sbIn.map .Stmt) := by
  have hout : fb_instrument sbIn = (dropNoOps sbIn).map .Stmt := by
    rw [fb_instrument_eq, walkPart_eq_nil sbIn h]
    simp [walkOut, walkCnt, finalFlush, copyPreamble, preamble_eq_self sbIn h, dropNoOps]
  refine ⟨hout, ?_, ?_⟩
  · intro cee
    rw [hout, callArgs_map_Stmt]
  · intro hn
    rw [hout]
    congr 1
    unfold dropNoOps
    rw [List.filter_eq_self]
    intro st hst
    simpa using hn st hst

/-- Witness of C5 (amended): a preamble-only block with a Store and an Exit. -/
theorem no_imark_copies_block_witness :
    (∀ st ∈ [IRStmt.Other 1, .Store (.RdTmp 0) (.Const 1), .Exit (.RdTmp 2) 64],
        st.tag ≠ .Ist_IMark) ∧
      fb_instrument [.Other 1, .Store (.RdTmp 0) (.Const 1), .Exit (.RdTmp 2) 64] =
        [.Other 1, .Store (.RdTmp 0) (.Const 1), .Exit (.RdTmp 2) 64].map .Stmt :=
  ⟨by decide, (no_imark_copies_block _ (by decide)).2.2 (by decide)⟩

/-- C6 as stated fails: a Store ahead of the first IMark is executed without an
add_mem_access call, so the memory-access histogram sums to less than the number of
Store statements executed. -/
theorem mem_access_total_misses_preamble_store :
    (∀ len ∈ imarkLens [.Store (.Const 8) (.Const 0), .IMark 0 4 0], 1 ≤ len ∧ len ≤ 15) ∧
      ∃ s', run 4096 (fun _ => 0)
          (fb_instrument [.Store (.Const 8) (.Const 0), .IMark 0 4 0]) Stats.zero = some s' ∧
        histSum 4096 s'.mem_access ≠
          countTag .Ist_Store
            (executed (fun _ => 0) [.Store (.Const 8) (.Const 0), .IMark 0 4 0]) := by
  refine ⟨by decide, ?_⟩
  obtain ⟨s1, h1⟩ := add_instr_len_some (fun _ => 0) 4 Stats.zero (by decide)
  have hm : s1.mem_access = Stats.zero.mem_access := by
    unfold add_instr_len at h1
    split at h1
    · cases h1
      rfl
    · cases h1
  have hout : fb_instrument [.Store (.Const 8) (.Const 0), .IMark 0 4 0] =
      [.Stmt (.Store (.Const 8) (.Const 0)), .Dirty .add_instr_len (mkIRExpr_HWord 4),
        .Stmt (.IMark 0 4 0)] := by decide
  refine ⟨s1, ?_, ?_⟩
  · rw [hout]
    simp only [run, callCollector, h1]
  · rw [hm]
    have h0 : histSum 4096 Stats.zero.mem_access = 0 := by
      simp [histSum, Stats.zero]
    rw [h0]
    decide

/-- C6, amended: for a block of fewer than 2^31 statements whose IMark lengths are all
below `MAX_INSTR_LEN` (the lengths 1..15 among them), a run of the instrumented block
from the zero-initialised store does not abort; afterwards the entries of the
instruction-length histogram sum to the number of IMark statements executed, and the
entries of the memory-access histogram sum to the number of executed Store statements
located after the first IMark. -/
theorem histogram_totals (PAGE_SIZE : Nat) (env : Nat → Nat) (sbIn : List IRStmt)
    (hP : 0 < PAGE_SIZE) (hlen : sbIn.length < 2 ^ 31)
    (hb : ∀ len ∈ imarkLens sbIn, len < MAX_INSTR_LEN) :
    ∃ s', run PAGE_SIZE env (fb_instrument sbIn) Stats.zero = some s' ∧
      histSum MAX_INSTR_LEN s'.instr_len = countTag .Ist_IMark (executed env sbIn) ∧
      histSum PAGE_SIZE s'.mem_access =
        countTag .Ist_Store (walkPart (executed env sbIn)) := by
  have hw : (walkPart sbIn).length < 2 ^ 31 := lt_of_le_of_lt (walkPart_length_le sbIn) hlen
  have hrun : run PAGE_SIZE env (fb_instrument sbIn) Stats.zero =
      if takesExit env (preamble sbIn) then some Stats.zero
      else run PAGE_SIZE env
        (walkOut (walkPart sbIn) 0 ++ finalFlush (walkCnt (walkPart sbIn) 0)) Stats.zero := by
    rw [fb_instrument_eq, List.append_assoc]
    unfold copyPreamble
    rw [run_map_Stmt]
  have hzi : histSum MAX_INSTR_LEN Stats.zero.instr_len = 0 := by simp [histSum, Stats.zero]
  have hzm : histSum PAGE_SIZE Stats.zero.mem_access = 0 := by simp [histSum, Stats.zero]
  have hcnt : countTag .Ist_IMark (executed env sbIn) =
      countTag .Ist_IMark (walkPart (executed env sbIn)) :=
    (countTag_IMark_walkPart _).symm
  rw [hrun, hcnt, executed_walkPart]
  by_cases ht : takesExit env (preamble sbIn) = true
  · simp only [ht, if_true]
    exact ⟨Stats.zero, rfl, by simp [hzi, countTag], by simp [hzm, countTag]⟩
  · simp only [if_neg ht]
    obtain ⟨s', h1, h2, h3⟩ := run_walk_hist PAGE_SIZE env (walkPart sbIn) 0 Stats.zero hP
      (by rw [hzi]; omega) (by rw [hzm]; omega)
      (fun len hl => hb len
        (imarkLens_subset _ _ (fun st hst => walkPart_subset _ _ (executed_subset _ _ _ hst))
          len hl))
    exact ⟨s', h1, by rw [h2, hzi, Nat.zero_add], by rw [h3, hzm, Nat.zero_add]⟩

/-- Witness of C6 (amended): the block of the specification with the instruction
lengths 4, 4, 6, no store and one exit, which is taken. -/
theorem histogram_totals_witness :
    ∃ s', run 4096 (fun _ => 1)
        (fb_instrument [.IMark 0 4 0, .IMark 4 4 0, .IMark 8 6 0, .Exit (.RdTmp 0) 64])
        Stats.zero = some s' ∧
      histSum MAX_INSTR_LEN s'.instr_len = countTag .Ist_IMark
        (executed (fun _ => 1) [.IMark 0 4 0, .IMark 4 4 0, .IMark 8 6 0,
          .Exit (.RdTmp 0) 64]) ∧
      histSum 4096 s'.mem_access = countTag .Ist_Store
        (walkPart (executed (fun _ => 1) [.IMark 0 4 0, .IMark 4 4 0, .IMark 8 6 0,
          .Exit (.RdTmp 0) 64])) :=
  histogram_totals 4096 (fun _ => 1) _ (by decide) (by decide) (by decide)

/-- C7 as stated fails: an Exit ahead of the first IMark is copied with no
add_n_guest_store call before it. -/
theorem preamble_exit_has_no_flush :
    ¬ ∃ P Q arg, fb_instrument [.Other 1, .Exit (.RdTmp 2) 64, .IMark 0 4 0] =
      P ++ .Dirty .add_n_guest_store arg :: .Stmt (.Exit (.RdTmp 2) 64) :: Q := by
  rintro ⟨P, Q, arg, h⟩
  have hc := congrArg (callArgs .add_n_guest_store) h
  rw [callArgs_append] at hc
  have hl := congrArg List.length hc
  have h0 : (callArgs .add_n_guest_store
      (fb_instrument [.Other 1, .Exit (.RdTmp 2) 64, .IMark 0 4 0])).length = 0 := by decide
  rw [h0] at hl
  simp [callArgs] at hl
  omega

/-- C7, amended: for a block of fewer than 2^31 statements and every Exit of it that
comes after the first IMark, the output has, immediately before that Exit, an
add_n_guest_store call whose argument is the number of Store statements located after
the first IMark and after the previous Exit (if any) and before this Exit. -/
theorem exit_flushes_stores_since_last_exit (sbIn : List IRStmt)
    (hlen : sbIn.length < 2 ^ 31) (A C : List IRStmt) (guard : IRExpr) (dst : Nat)
    (hsplit : sbIn = A ++ .Exit guard dst :: C)
    (hIM : ∃ st ∈ A, st.tag = .Ist_IMark) :
    ∃ P Q, fb_instrument sbIn =
        P ++ .Dirty .add_n_guest_store
            (mkIRExpr_HWord (countTag .Ist_Store (sinceLastExit (walkPart A)))) ::
          .Stmt (.Exit guard dst) :: Q ∧
      origStmts P = dropNoOps A := by
  subst hsplit
  have hA : A.length < 2 ^ 31 := by
    have : A.length ≤ (A ++ IRStmt.Exit guard dst :: C).length := by simp
    omega
  have hm : countTag .Ist_Store (sinceLastExit (walkPart A)) % HWORD_MOD =
      countTag .Ist_Store (sinceLastExit (walkPart A)) :=
    Nat.mod_eq_of_lt (by have := trailing_lt A hA; unfold HWORD_MOD; omega)
  refine ⟨copyPreamble A ++ walkOut (walkPart A) 0,
    walkOut C 0 ++ finalFlush (walkCnt (walkPart (A ++ .Exit guard dst :: C)) 0), ?_,
    origStmts_emitted A 0⟩
  rw [fb_instrument_eq, walkPart_append_of_imark A _ hIM, walkOut_append,
    walkCnt_zero (walkPart A), hm]
  simp [copyPreamble, preamble_append_of_imark A _ hIM, walkOut, walkStep, walkCnt]

/-- Witness of C7 (amended): the second Exit of a block with two exits. -/
theorem exit_flushes_stores_since_last_exit_witness :
    ∃ P Q, fb_instrument [.Store (.RdTmp 9) (.Const 0), .IMark 0 4 0,
          .Store (.RdTmp 1) (.Const 0), .Exit (.RdTmp 2) 64, .Store (.RdTmp 3) (.Const 0),
          .Store (.RdTmp 4) (.Const 0), .Exit (.RdTmp 5) 96] =
        P ++ .Dirty .add_n_guest_store
            (mkIRExpr_HWord (countTag .Ist_Store (sinceLastExit (walkPart
              [.Store (.RdTmp 9) (.Const 0), .IMark 0 4 0, .Store (.RdTmp 1) (.Const 0),
                .Exit (.RdTmp 2) 64, .Store (.RdTmp 3) (.Const 0),
                .Store (.RdTmp 4) (.Const 0)])))) ::
          .Stmt (.Exit (.RdTmp 5) 96) :: Q ∧
      origStmts P = dropNoOps [.Store (.RdTmp 9) (.Const 0), .IMark 0 4 0,
        .Store (.RdTmp 1) (.Const 0), .Exit (.RdTmp 2) 64, .Store (.RdTmp 3) (.Const 0),
        .Store (.RdTmp 4) (.Const 0)] :=
  exit_flushes_stores_since_last_exit _ (by decide)
    [.Store (.RdTmp 9) (.Const 0), .IMark 0 4 0, .Store (.RdTmp 1) (.Const 0),
      .Exit (.RdTmp 2) 64, .Store (.RdTmp 3) (.Const 0), .Store (.RdTmp 4) (.Const 0)]
    [] (.RdTmp 5) 96 rfl (by decide)

/-- C8 as stated fails: a block whose only Store precedes the first IMark has stores
and no Exit, yet no final add_n_guest_store call is appended. -/
theorem no_final_flush_for_preamble_store :
    countTag .Ist_Store (sinceLastExit [.Store (.RdTmp 1) (.Const 0), .IMark 0 4 0]) ≠ 0 ∧
      ¬ ∃ arg, (fb_instrument [.Store (.RdTmp 1) (.Const 0), .IMark 0 4 0]).getLast? =
        some (.Dirty .add_n_guest_store arg) := by
  refine ⟨by decide, ?_⟩
  rintro ⟨arg, h⟩
  have h0 : (fb_instrument [.Store (.RdTmp 1) (.Const 0), .IMark 0 4 0]).getLast? =
      some (.Stmt (.IMark 0 4 0)) := by decide
  rw [h0] at h
  cases h

/-- C8, amended: for a block of fewer than 2^31 statements, the output ends with an
add_n_guest_store call if and only if at least one Store follows both the first IMark
and the last Exit; that call then carries the number of those stores and comes after
every original statement; otherwise the last statement of the output is the last
input statement that is not a NoOp (and the output is empty when there is none). -/
theorem final_flush_iff_trailing_stores (sbIn : List IRStmt) (hlen : sbIn.length < 2 ^ 31) :
    ((∃ arg, (fb_instrument sbIn).getLast? = some (.Dirty .add_n_guest_store arg)) ↔
        countTag .Ist_Store (sinceLastExit (walkPart sbIn)) ≠ 0) ∧
      (countTag .Ist_Store (sinceLastExit (walkPart sbIn)) ≠ 0 →
        (fb_instrument sbIn).getLast? = some (.Dirty .add_n_guest_store
            (mkIRExpr_HWord (countTag .Ist_Store (sinceLastExit (walkPart sbIn))))) ∧
          origStmts (fb_instrument sbIn).dropLast = dropNoOps sbIn) ∧
      (countTag .Ist_Store (sinceLastExit (walkPart sbIn)) = 0 →
        (fb_instrument sbIn).getLast? = (dropNoOps sbIn).getLast?.map .Stmt) := by
  have hm : walkCnt (walkPart sbIn) 0 = countTag .Ist_Store (sinceLastExit (walkPart sbIn)) := by
    rw [walkCnt_zero]
    exact Nat.mod_eq_of_lt (by have := trailing_lt sbIn hlen; unfold HWORD_MOD; omega)
  have hnd := walkOut_getLast_not_dirty (copyPreamble sbIn) (walkPart sbIn) 0
    (copyPreamble_getLast_not_dirty sbIn)
  have hpos : countTag .Ist_Store (sinceLastExit (walkPart sbIn)) ≠ 0 →
      fb_instrument sbIn = (copyPreamble sbIn ++ walkOut (walkPart sbIn) 0) ++
        [.Dirty .add_n_guest_store
          (mkIRExpr_HWord (countTag .Ist_Store (sinceLastExit (walkPart sbIn))))] := by
    intro h
    rw [fb_instrument_eq, hm]
    simp [finalFlush, h]
  have hzero : countTag .Ist_Store (sinceLastExit (walkPart sbIn)) = 0 →
      fb_instrument sbIn = copyPreamble sbIn ++ walkOut (walkPart sbIn) 0 := by
    intro h
    rw [fb_instrument_eq, hm]
    simp [finalFlush, h]
  refine ⟨⟨?_, ?_⟩, ?_, ?_⟩
  · rintro ⟨arg, h⟩ h0
    rw [hzero h0] at h
    exact hnd _ _ h
  · intro h
    exact ⟨_, by rw [hpos h, List.getLast?_concat]⟩
  · intro h
    constructor
    · rw [hpos h, List.getLast?_concat]
    · rw [hpos h, List.dropLast_concat, origStmts_emitted]
  · intro h
    rw [hzero h, getLast_of_not_dirty _ hnd, origStmts_emitted]

/-- Witness of C8 (amended): a block with one Store after its only Exit. -/
theorem final_flush_iff_trailing_stores_witness :
    (fb_instrument [.IMark 0 4 0, .Store (.RdTmp 1) (.Const 0), .Exit (.RdTmp 2) 64,
        .IMark 4 2 0, .Store (.RdTmp 3) (.Const 0)]).getLast? =
      some (.Dirty .add_n_guest_store (mkIRExpr_HWord (countTag .Ist_Store (sinceLastExit
        (walkPart [.IMark 0 4 0, .Store (.RdTmp 1) (.Const 0), .Exit (.RdTmp 2) 64,
          .IMark 4 2 0, .Store (.RdTmp 3) (.Const 0)]))))) ∧
      origStmts (fb_instrument [.IMark 0 4 0, .Store (.RdTmp 1) (.Const 0),
        .Exit (.RdTmp 2) 64, .IMark 4 2 0, .Store (.RdTmp 3) (.Const 0)]).dropLast =
      dropNoOps [.IMark 0 4 0, .Store (.RdTmp 1) (.Const 0), .Exit (.RdTmp 2) 64,
        .IMark 4 2 0, .Store (.RdTmp 3) (.Const 0)] :=
  (final_flush_iff_trailing_stores _ (by decide)).2.1 (by decide)

/-- C9 as stated fails: a Store ahead of the first IMark gets no add_mem_access call,
so the output has fewer such calls than the input has Store statements. -/
theorem preamble_store_has_no_access_call :
    (callArgs .add_mem_access
        (fb_instrument [.Store (.RdTmp 1) (.Const 0), .IMark 0 4 0])).length ≠
      countTag .Ist_Store [.Store (.RdTmp 1) (.Const 0), .IMark 0 4 0] := by
  decide

/-- C9, amended: for every Store of the input that comes after the first IMark, the
output has, immediately before that Store, an add_mem_access call whose argument is
that Store's own address expression; the number of add_mem_access calls of the output
is the number of Store statements from the first IMark on. -/
theorem store_gets_access_call (sbIn : List IRStmt) :
    (callArgs .add_mem_access (fb_instrument sbIn)).length =
        countTag .Ist_Store (walkPart sbIn) ∧
      ∀ (A C : List IRStmt) (addr data : IRExpr),
        sbIn = A ++ .Store addr data :: C → (∃ st ∈ A, st.tag = .Ist_IMark) →
        ∃ P Q, fb_instrument sbIn =
            P ++ .Dirty .add_mem_access addr :: .Stmt (.Store addr data) :: Q ∧
          origStmts P = dropNoOps A := by
  constructor
  · rw [fb_instrument_eq, callArgs_append, callArgs_append, List.length_append,
      List.length_append, callArgs_access_walkOut_length]
    have hp : callArgs .add_mem_access (copyPreamble sbIn) = [] := callArgs_map_Stmt _ _
    have hf : callArgs .add_mem_access (finalFlush (walkCnt (walkPart sbIn) 0)) = [] := by
      unfold finalFlush
      split <;> simp [callArgs]
    simp [hp, hf]
  · intro A C addr data hsplit hIM
    subst hsplit
    refine ⟨copyPreamble A ++ walkOut (walkPart A) 0,
      walkOut C ((walkCnt (walkPart A) 0 + 1) % HWORD_MOD) ++
        finalFlush (walkCnt (walkPart (A ++ .Store addr data :: C)) 0), ?_,
      origStmts_emitted A 0⟩
    rw [fb_instrument_eq, walkPart_append_of_imark A _ hIM, walkOut_append]
    simp [copyPreamble, preamble_append_of_imark A _ hIM, walkOut, walkStep, walkCnt]

/-- Witness of C9 (amended): the Store after the first IMark of a block that also has
a Store in its preamble. -/
theorem store_gets_access_call_witness :
    ∃ P Q, fb_instrument [.Store (.RdTmp 9) (.Const 0), .IMark 0 4 0,
          .Store (.RdTmp 1) (.Const 0), .Exit (.RdTmp 2) 64] =
        P ++ .Dirty .add_mem_access (.RdTmp 1) :: .Stmt (.Store (.RdTmp 1) (.Const 0)) :: Q ∧
      origStmts P = dropNoOps [.Store (.RdTmp 9) (.Const 0), .IMark 0 4 0] :=
  (store_gets_access_call [.Store (.RdTmp 9) (.Const 0), .IMark 0 4 0,
      .Store (.RdTmp 1) (.Const 0), .Exit (.RdTmp 2) 64]).2
    [.Store (.RdTmp 9) (.Const 0), .IMark 0 4 0] [.Exit (.RdTmp 2) 64] (.RdTmp 1) (.Const 0)
    rfl (by decide)

/-- C10 as stated fails: an entry that holds 2^64 - 1 wraps to zero instead of growing
by one. -/
theorem add_mem_access_wraps :
    (add_mem_access 4096 10
        { n_st := 0, instr_len := fun _ => 0, mem_access := fun _ => 2 ^ 64 - 1 }).mem_access
        (10 % 4096) ≠
      (2 ^ 64 - 1) + 1 := by
  decide

/-- C10, amended: add_mem_access(addr) sets the entry of index addr mod PAGE_SIZE of the
memory-access histogram to its previous value plus one modulo 2^64, which is an
increase by exactly one unless the entry holds 2^64 - 1; it leaves every other entry of
that histogram, the instruction-length histogram and the store counter unchanged; two
addresses that differ by a multiple of PAGE_SIZE update the same entry. -/
theorem add_mem_access_spec (PAGE_SIZE : Nat) (addr : Nat) (s : Stats) :
    (add_mem_access PAGE_SIZE addr s).mem_access (addr % PAGE_SIZE) =
        (s.mem_access (addr % PAGE_SIZE) + 1) % ULONG_MOD ∧
      (s.mem_access (addr % PAGE_SIZE) + 1 < ULONG_MOD →
        (add_mem_access PAGE_SIZE addr s).mem_access (addr % PAGE_SIZE) =
          s.mem_access (addr % PAGE_SIZE) + 1) ∧
      (∀ j, j ≠ addr % PAGE_SIZE →
        (add_mem_access PAGE_SIZE addr s).mem_access j = s.mem_access j) ∧
      (add_mem_access PAGE_SIZE addr s).instr_len = s.instr_len ∧
      (add_mem_access PAGE_SIZE addr s).n_st = s.n_st ∧
      (∀ k, add_mem_access PAGE_SIZE (addr + k * PAGE_SIZE) s =
        add_mem_access PAGE_SIZE addr s) := by
  refine ⟨by simp [add_mem_access], ?_, ?_, rfl, rfl, ?_⟩
  · intro h
    simp [add_mem_access, Nat.mod_eq_of_lt h]
  · intro j hj
    simp [add_mem_access, Function.update_noteq hj]
  · intro k
    simp [add_mem_access, Nat.add_mul_mod_self_right]

/-- Witness of C10 (amended): the first store of the specification scenario, at the
address 3 * 4096 + 10, on the zero-initialised store. -/
theorem add_mem_access_spec_witness :
    (add_mem_access 4096 (3 * 4096 + 10) Stats.zero).mem_access 10 = 1 ∧
      (add_mem_access 4096 (3 * 4096 + 10) Stats.zero).mem_access 11 = 0 ∧
      add_mem_access 4096 (7 * 4096 + 10) Stats.zero =
        add_mem_access 4096 (3 * 4096 + 10) Stats.zero :=
  ⟨(add_mem_access_spec 4096 (3 * 4096 + 10) Stats.zero).2.1 (by decide),
    (add_mem_access_spec 4096 (3 * 4096 + 10) Stats.zero).2.2.1 11 (by decide),
    (add_mem_access_spec 4096 (3 * 4096 + 10) Stats.zero).2.2.2.2.2 4⟩

/-- C11 as stated fails: an entry that holds 2^64 - 1 wraps to zero instead of growing
by one. -/
theorem add_instr_len_wraps :
    (add_instr_len 4
        { n_st := 0, instr_len := fun _ => 2 ^ 64 - 1, mem_access := fun _ => 0 }).map
        (fun s => s.instr_len 4) ≠
      some ((2 ^ 64 - 1) + 1) := by
  decide

/-- C11, amended: for every length from 1 to 15, add_instr_len(length) passes its
assertion and sets the entry of that length of the instruction-length histogram to its
previous value plus one modulo 2^64, which is an increase by exactly one unless the
entry holds 2^64 - 1; it leaves every other entry of that histogram, the memory-access
histogram and the store counter unchanged. -/
theorem add_instr_len_spec (idx : Int) (s : Stats) (h1 : 1 ≤ idx) (h15 : idx ≤ 15) :
    ∃ s', add_instr_len idx s = some s' ∧
      s'.instr_len idx.toNat = (s.instr_len idx.toNat + 1) % ULONG_MOD ∧
      (s.instr_len idx.toNat + 1 < ULONG_MOD →
        s'.instr_len idx.toNat = s.instr_len idx.toNat + 1) ∧
      (∀ j, j ≠ idx.toNat → s'.instr_len j = s.instr_len j) ∧
      s'.mem_access = s.mem_access ∧
      s'.n_st = s.n_st := by
  have hlt : toULong idx < max_instr_len := by
    unfold toULong ULONG_MOD max_instr_len MAX_INSTR_LEN
    omega
  refine ⟨{ s with
      instr_len := Function.update s.instr_len idx.toNat
        ((s.instr_len idx.toNat + 1) % ULONG_MOD) },
    by unfold add_instr_len; rw [if_pos hlt], by simp, ?_, ?_, rfl, rfl⟩
  · intro h
    simp [Nat.mod_eq_of_lt h]
  · intro j hj
    simp [Function.update_noteq hj]

/-- Witness of C11 (amended): the length 4 on the zero-initialised store. -/
theorem add_instr_len_spec_witness :
    ∃ s', add_instr_len 4 Stats.zero = some s' ∧ s'.instr_len 4 = 1 ∧ s'.instr_len 5 = 0 :=
  (add_instr_len_spec 4 Stats.zero (by decide) (by decide)).elim
    (fun s' h => ⟨s', h.1, h.2.2.1 (by decide), h.2.2.2.1 5 (by decide)⟩)

/-- C12 as stated fails: the argument zero passes the assertion and is recorded at
index 0. -/
theorem add_instr_len_zero_recorded :
    (add_instr_len 0 Stats.zero).map (fun s => s.instr_len 0) = some 1 := by
  decide

/-- C12, amended: for every value of the int parameter, add_instr_len fails its
assertion, and so modifies nothing, exactly when the argument is outside 0..15, that
is negative or at least 16; the argument zero passes. -/
theorem add_instr_len_aborts_iff (idx : Int) (s : Stats)
    (hint : -2 ^ 31 ≤ idx ∧ idx < 2 ^ 31) :
    add_instr_len idx s = none ↔ (idx < 0 ∨ 16 ≤ idx) := by
  obtain ⟨hlo, hhi⟩ := hint
  unfold add_instr_len
  have hiff : toULong idx < max_instr_len ↔ (0 ≤ idx ∧ idx < 16) := by
    unfold toULong ULONG_MOD max_instr_len MAX_INSTR_LEN
    omega
  by_cases h : toULong idx < max_instr_len
  · rw [if_pos h]
    have := hiff.mp h
    constructor
    · intro hn
      cases hn
    · intro ho
      omega
  · rw [if_neg h]
    have : ¬ (0 ≤ idx ∧ idx < 16) := fun hc => h (hiff.mpr hc)
    constructor
    · intro _
      omega
    · intro _
      rfl

/-- Witness of C12 (amended): the argument -1 aborts. -/
theorem add_instr_len_aborts_iff_witness : add_instr_len (-1) Stats.zero = none :=
  (add_instr_len_aborts_iff (-1) Stats.zero (by decide)).mpr (Or.inl (by decide))

/-- C13 as stated fails: the run of a block with an IMark of length 0 leaves 1 at
index 0 of the instruction-length histogram, without aborting. -/
theorem instr_len_zero_populated :
    (runBlocks 4096 [(fun _ => 0, [.IMark 0 0 0, .Exit (.Const 1) 64])] Stats.zero).map
      (fun s => s.instr_len 0) = some 1 := by
  decide

/-- C13, amended: for every sequence of executions of instrumented blocks from the
zero-initialised store in which no IMark has the length 0, entry 0 of the
instruction-length histogram is 0 in the state reached, if no collector aborted; and
no collector aborts when every IMark has a length below `MAX_INSTR_LEN`. -/
theorem instr_len_zero_stays_zero (PAGE_SIZE : Nat)
    (runs : List ((Nat → Nat) × List IRStmt))
    (hne : ∀ r ∈ runs, ∀ len ∈ imarkLens r.2, 0 < len ∧ len < 2 ^ 32) :
    (∀ s', runBlocks PAGE_SIZE runs Stats.zero = some s' → s'.instr_len 0 = 0) ∧
      ((∀ r ∈ runs, ∀ len ∈ imarkLens r.2, len < MAX_INSTR_LEN) →
        ∃ s', runBlocks PAGE_SIZE runs Stats.zero = some s') :=
  ⟨fun s' h => runBlocks_instr_len_zero PAGE_SIZE runs Stats.zero s' hne rfl h,
    fun hb => runBlocks_some PAGE_SIZE runs Stats.zero hb⟩

/-- Witness of C13 (amended): two executions, the second one leaving at its exit. -/
theorem instr_len_zero_stays_zero_witness :
    ∃ s', runBlocks 4096
        [(fun _ => 0, [.IMark 0 4 0, .Store (.RdTmp 1) (.Const 0)]),
          (fun _ => 1, [.IMark 4 2 0, .Exit (.RdTmp 2) 64, .IMark 6 15 0])] Stats.zero =
        some s' ∧
      s'.instr_len 0 = 0 :=
  have t := instr_len_zero_stays_zero 4096
    [(fun _ => 0, [.IMark 0 4 0, .Store (.RdTmp 1) (.Const 0)]),
      (fun _ => 1, [.IMark 4 2 0, .Exit (.RdTmp 2) 64, .IMark 6 15 0])] (by decide)
  (t.2 (by decide)).elim (fun s' h => ⟨s', h, t.1 s' h⟩)

/-- C14: add_n_guest_store(count) sets the store counter to its previous value plus
count in 64-bit unsigned arithmetic, that is to the sum modulo 2^64, for every value
of the int parameter, and leaves both histograms unchanged. -/
theorem add_n_guest_store_spec (count : Int) (s : Stats) :
    ((add_n_guest_store count s).n_st : Int) = ((s.n_st : Int) + count) % 2 ^ 64 ∧
      (add_n_guest_store count s).instr_len = s.instr_len ∧
      (add_n_guest_store count s).mem_access = s.mem_access := by
  refine ⟨?_, rfl, rfl⟩
  unfold add_n_guest_store toULong ULONG_MOD
  simp only
  omega

/-- C15 as stated fails: add_n_guest_store with the argument -1 takes the store
counter from 5 down to 4. -/
theorem add_n_guest_store_decreases :
    (add_n_guest_store (-1)
        { n_st := 5, instr_len := fun _ => 0, mem_access := fun _ => 0 }).n_st < 5 := by
  decide

/-- C15, amended: add_instr_len and add_mem_access leave the store counter unchanged,
and add_n_guest_store(count) does not decrease it when count is not negative and the
sum of the counter and count is below 2^64; the counter then grows by count.  For a
counter below 2^64 and every value of the int parameter, add_n_guest_store(count)
makes the counter smaller exactly when count is negative and the counter is at least
-count, or count is positive and the sum of the counter and count reaches 2^64; a
negative count larger in size than the counter wraps it upwards, to the counter plus
count plus 2^64. -/
theorem n_st_nondecreasing (s : Stats) :
    (∀ idx s', add_instr_len idx s = some s' → s'.n_st = s.n_st) ∧
      (∀ PAGE_SIZE addr, (add_mem_access PAGE_SIZE addr s).n_st = s.n_st) ∧
      (∀ count : Int, 0 ≤ count → s.n_st + count.toNat < 2 ^ 64 →
        (add_n_guest_store count s).n_st = s.n_st + count.toNat ∧
          s.n_st ≤ (add_n_guest_store count s).n_st) ∧
      (∀ count : Int, -2 ^ 31 ≤ count → count < 2 ^ 31 → s.n_st < 2 ^ 64 →
        ((add_n_guest_store count s).n_st < s.n_st ↔
          ((count < 0 ∧ -count ≤ (s.n_st : Int)) ∨
            (0 < count ∧ (2 : Int) ^ 64 ≤ (s.n_st : Int) + count))) ∧
        (count < 0 → (s.n_st : Int) + count < 0 →
          ((add_n_guest_store count s).n_st : Int) = (s.n_st : Int) + count + 2 ^ 64)) := by
  refine ⟨fun idx s' h => add_instr_len_n_st idx s s' h, fun _ _ => rfl, ?_, ?_⟩
  · intro count h0 hsum
    have hu : toULong count = count.toNat := by
      unfold toULong ULONG_MOD
      omega
    have he : (add_n_guest_store count s).n_st = s.n_st + count.toNat := by
      unfold add_n_guest_store
      simp only [hu]
      exact Nat.mod_eq_of_lt (by unfold ULONG_MOD; omega)
    exact ⟨he, by omega⟩
  · intro count hlo hhi hs
    unfold add_n_guest_store toULong ULONG_MOD
    simp only
    constructor
    · omega
    · intro hneg hsum
      omega

/-- Witness of C15 (amended): on a counter that holds 5 the argument 3 gives 8 and the
argument -1 gives less than 5, add_instr_len leaves 5; on a counter that holds 0 the
argument -1 gives 2^64 - 1. -/
theorem n_st_nondecreasing_witness :
    (add_n_guest_store 3
        { n_st := 5, instr_len := fun _ => 0, mem_access := fun _ => 0 }).n_st = 8 ∧
      (∃ s', add_instr_len 4
        { n_st := 5, instr_len := fun _ => 0, mem_access := fun _ => 0 } = some s' ∧
        s'.n_st = 5) ∧
      (add_n_guest_store (-1)
        { n_st := 5, instr_len := fun _ => 0, mem_access := fun _ => 0 }).n_st < 5 ∧
      ((add_n_guest_store (-1) Stats.zero).n_st : Int) = 0 + -1 + 2 ^ 64 :=
  ⟨((n_st_nondecreasing
      { n_st := 5, instr_len := fun _ => 0, mem_access := fun _ => 0 }).2.2.1 3
      (by decide) (by decide)).1,
    ⟨_, rfl,
      (n_st_nondecreasing
        { n_st := 5, instr_len := fun _ => 0, mem_access := fun _ => 0 }).1 4 _ rfl⟩,
    ((n_st_nondecreasing
      { n_st := 5, instr_len := fun _ => 0, mem_access := fun _ => 0 }).2.2.2 (-1)
      (by decide) (by decide) (by decide)).1.mpr (Or.inl ⟨by decide, by decide⟩),
    ((n_st_nondecreasing Stats.zero).2.2.2 (-1) (by decide) (by decide) (by decide)).2
      (by decide) (by decide)⟩

/-- C16: the instruction-length table printed by fb_fini has exactly one row for each
of the lengths 1, 2, ..., 15, in this order, and each row shows the current count of
its length, zero counts included. -/
theorem fini_len_table (PAGE_SIZE : Nat) (exitcode : Int) (s : Stats) :
    lenRows (fb_fini PAGE_SIZE exitcode s).1 =
        (List.range' 1 15).map (fun i => (i, s.instr_len i)) ∧
      (lenRows (fb_fini PAGE_SIZE exitcode s).1).map Prod.fst =
        [1, 2, 3, 4, 5, 6, 7, 8, 9, 10, 11, 12, 13, 14, 15] ∧
      (∀ row ∈ lenRows (fb_fini PAGE_SIZE exitcode s).1, row.2 = s.instr_len row.1) ∧
      ((lenRows (fb_fini PAGE_SIZE exitcode s).1).map Prod.fst).Pairwise (· < ·) := by
  have h : lenRows (fb_fini PAGE_SIZE exitcode s).1 =
      (List.range' 1 15).map (fun i => (i, s.instr_len i)) := lenRows_fb_fini _ _ _
  have hf : (lenRows (fb_fini PAGE_SIZE exitcode s).1).map Prod.fst =
      [1, 2, 3, 4, 5, 6, 7, 8, 9, 10, 11, 12, 13, 14, 15] := by
    rw [h, List.map_map]
    rfl
  refine ⟨h, hf, ?_, ?_⟩
  · intro row hrow
    rw [h, List.mem_map] at hrow
    obtain ⟨i, _, rfl⟩ := hrow
    rfl
  · rw [hf]
    decide

/-- C17: the memory-store table printed by fb_fini has a row for the page offset o
exactly when entry o of the memory-access histogram is nonzero, that row shows the
current count, the offsets of the rows are strictly increasing (so no offset appears
twice), and fb_fini leaves the Statistics Store unchanged. -/
theorem fini_mem_table (PAGE_SIZE : Nat) (exitcode : Int) (s : Stats) :
    (∀ o n, (o, n) ∈ memRows (fb_fini PAGE_SIZE exitcode s).1 ↔
        (o < PAGE_SIZE ∧ s.mem_access o ≠ 0 ∧ n = s.mem_access o)) ∧
      ((memRows (fb_fini PAGE_SIZE exitcode s).1).map Prod.fst).Pairwise (· < ·) ∧
      ((memRows (fb_fini PAGE_SIZE exitcode s).1).map Prod.fst).Nodup ∧
      (fb_fini PAGE_SIZE exitcode s).2 = s := by
  have hp : ((memRows (fb_fini PAGE_SIZE exitcode s).1).map Prod.fst).Pairwise (· < ·) := by
    rw [memRows_fb_fini, List.map_map]
    have hid : (Prod.fst ∘ fun i => (i, s.mem_access i)) = id := rfl
    rw [hid, List.map_id]
    exact (List.pairwise_lt_range PAGE_SIZE).filter _
  refine ⟨?_, hp, hp.imp (fun h => Nat.ne_of_lt h), rfl⟩
  intro o n
  rw [memRows_fb_fini, List.mem_map]
  constructor
  · rintro ⟨i, hi, heq⟩
    rw [List.mem_filter, List.mem_range] at hi
    cases heq
    exact ⟨hi.1, by simpa using hi.2, rfl⟩
  · rintro ⟨ho, hne, rfl⟩
    exact ⟨o, by rw [List.mem_filter, List.mem_range]; exact ⟨ho, by simpa using hne⟩, rfl⟩

/-- C18: for a positive PAGE_SIZE, add_mem_access writes the one entry of index
addr % PAGE_SIZE, which is below PAGE_SIZE, and touches no index from PAGE_SIZE on;
for every value of its int parameter, add_instr_len reaches its write only when
0 <= idx < MAX_INSTR_LEN, so a negative idx fails the assertion, and the write goes to
the entry idx, below MAX_INSTR_LEN. -/
theorem collector_writes_in_bounds (PAGE_SIZE : Nat) (hP : 0 < PAGE_SIZE) (s : Stats) :
    (∀ addr, addr % PAGE_SIZE < PAGE_SIZE ∧
        (∀ j, PAGE_SIZE ≤ j → (add_mem_access PAGE_SIZE addr s).mem_access j = s.mem_access j)) ∧
      (∀ idx : Int, -2 ^ 31 ≤ idx → idx < 2 ^ 31 → ∀ s', add_instr_len idx s = some s' →
        0 ≤ idx ∧ idx < MAX_INSTR_LEN ∧
          ∃ i, i < MAX_INSTR_LEN ∧ (i : Int) = idx ∧
            s' = { s with
              instr_len := Function.update s.instr_len i ((s.instr_len i + 1) % ULONG_MOD) }) ∧
      (∀ idx : Int, -2 ^ 31 ≤ idx → idx < 0 → add_instr_len idx s = none) := by
  refine ⟨?_, ?_, ?_⟩
  · intro addr
    have hlt : addr % PAGE_SIZE < PAGE_SIZE := Nat.mod_lt addr hP
    refine ⟨hlt, fun j hj => ?_⟩
    have hne : j ≠ addr % PAGE_SIZE := by omega
    simp [add_mem_access, Function.update_noteq hne]
  · intro idx hlo hhi s' h
    unfold add_instr_len at h
    split at h
    · rename_i hlt
      have hr : 0 ≤ idx ∧ idx < 16 := by
        unfold toULong ULONG_MOD max_instr_len MAX_INSTR_LEN at hlt
        omega
      refine ⟨hr.1, by unfold MAX_INSTR_LEN; omega, idx.toNat, by unfold MAX_INSTR_LEN; omega,
        by omega, ?_⟩
      cases h
      rfl
    · cases h
  · intro idx hlo hneg
    unfold add_instr_len
    have hn : ¬ toULong idx < max_instr_len := by
      unfold toULong ULONG_MOD max_instr_len MAX_INSTR_LEN
      omega
    rw [if_neg hn]

/-- Witness of C18: the address 2^64 - 1 with the page size 4096, and the int values 15
and -1. -/
theorem collector_writes_in_bounds_witness :
    (2 ^ 64 - 1) % 4096 < 4096 ∧
      (∃ i, i < MAX_INSTR_LEN ∧ (i : Int) = 15) ∧
      add_instr_len (-1) Stats.zero = none :=
  have t := collector_writes_in_bounds 4096 (by decide) Stats.zero
  ⟨(t.1 (2 ^ 64 - 1)).1,
    (t.2.1 15 (by decide) (by decide) _ rfl).2.2.elim (fun i h => ⟨i, h.1, h.2.1⟩),
    t.2.2 (-1) (by decide) (by decide)⟩

/-- C19: with the inserted collector calls deleted, the output is the input with
exactly its NoOp statements removed: it holds no NoOp, every statement of another kind
occurs in it as often as in the input, in the input order, and a NoOp at any place of
the input, ahead of the first IMark or after it, leaves the whole output unchanged. -/
theorem noops_dropped_everywhere (sbIn : List IRStmt) :
    origStmts (fb_instrument sbIn) = sbIn.filter (fun st => decide (st ≠ .NoOp)) ∧
      IRStmt.NoOp ∉ origStmts (fb_instrument sbIn) ∧
      (∀ st, st ≠ .NoOp → (origStmts (fb_instrument sbIn)).count st = sbIn.count st) ∧
      (origStmts (fb_instrument sbIn)).Sublist sbIn ∧
      (∀ A B, sbIn = A ++ .NoOp :: B → fb_instrument sbIn = fb_instrument (A ++ B)) := by
  have h : origStmts (fb_instrument sbIn) = sbIn.filter (fun st => decide (st ≠ .NoOp)) := by
    rw [origStmts_fb_instrument, dropNoOps_eq_filter]
  refine ⟨h, ?_, ?_, ?_, ?_⟩
  · rw [h, List.mem_filter]
    simp
  · intro st hst
    rw [h]
    exact List.count_filter (by simpa using hst)
  · rw [h]
    exact List.filter_sublist _
  · intro A B hsplit
    subst hsplit
    rw [← fb_instrument_dropNoOps (A ++ .NoOp :: B), ← fb_instrument_dropNoOps (A ++ B)]
    congr 1
    have ht : (IRStmt.NoOp.tag != IRStmtTag.Ist_NoOp) = false := rfl
    simp [dropNoOps, List.filter_cons, ht]

/-- Witness of C19: a block with one NoOp ahead of its first IMark and one after it. -/
theorem noops_dropped_everywhere_witness :
    fb_instrument [.Other 1, .NoOp, .IMark 0 4 0, .NoOp, .Store (.RdTmp 1) (.Const 0)] =
      fb_instrument ([.Other 1, .NoOp, .IMark 0 4 0] ++ [.Store (.RdTmp 1) (.Const 0)]) ∧
    (origStmts (fb_instrument
      [.Other 1, .NoOp, .IMark 0 4 0, .NoOp, .Store (.RdTmp 1) (.Const 0)])).count
        (.Store (.RdTmp 1) (.Const 0)) =
      List.count (IRStmt.Store (.RdTmp 1) (.Const 0))
        [.Other 1, .NoOp, .IMark 0 4 0, .NoOp, .Store (.RdTmp 1) (.Const 0)] :=
  ⟨(noops_dropped_everywhere
      [.Other 1, .NoOp, .IMark 0 4 0, .NoOp, .Store (.RdTmp 1) (.Const 0)]).2.2.2.2
      [.Other 1, .NoOp, .IMark 0 4 0] [.Store (.RdTmp 1) (.Const 0)] rfl,
    (noops_dropped_everywhere
      [.Other 1, .NoOp, .IMark 0 4 0, .NoOp, .Store (.RdTmp 1) (.Const 0)]).2.2.1
      (.Store (.RdTmp 1) (.Const 0)) (by decide)⟩

/-- C20: the statements that precede the first IMark are copied (NoOp apart) with no
collector call among them, the first inserted call is the add_instr_len call of the
first IMark, and the collector calls of the output and their arguments, the flushed
tallies among them, are those of the block that starts at the first IMark: a Store or
an Exit ahead of the first IMark contributes to no tally. -/
theorem preamble_not_instrumented (pre X : List IRStmt)
    (hpre : ∀ st ∈ pre, st.tag ≠ .Ist_IMark) :
    fb_instrument (pre ++ X) = (dropNoOps pre).map .Stmt ++ fb_instrument X ∧
      (∀ cee, callArgs cee (fb_instrument (pre ++ X)) = callArgs cee (fb_instrument X)) ∧
      (∀ env, flushSum env (fb_instrument (pre ++ X)) = flushSum env (fb_instrument X)) ∧
      (∀ a len d rest, X = .IMark a len d :: rest →
        ∃ Q, fb_instrument (pre ++ X) =
          (dropNoOps pre).map .Stmt ++
            .Dirty .add_instr_len (mkIRExpr_HWord len) :: .Stmt (.IMark a len d) :: Q) := by
  have h := fb_instrument_preamble_append pre X hpre
  have hc : ∀ cee, callArgs cee (fb_instrument (pre ++ X)) = callArgs cee (fb_instrument X) := by
    intro cee
    rw [h, callArgs_append, callArgs_map_Stmt, List.nil_append]
  refine ⟨h, hc, ?_, ?_⟩
  · intro env
    unfold flushSum
    rw [hc]
  · intro a len d rest hX
    subst hX
    refine ⟨walkOut rest 0 ++ finalFlush (walkCnt (.IMark a len d :: rest) 0), ?_⟩
    rw [h, fb_instrument_eq]
    simp [copyPreamble, preamble, walkPart, IRStmt.tag, List.takeWhile_cons,
      List.dropWhile_cons, walkOut, walkStep, walkCnt]

/-- Witness of C20: a block with a Store and an Exit ahead of its first IMark. -/
theorem preamble_not_instrumented_witness :
    (∃ Q, fb_instrument ([.Store (.RdTmp 9) (.Const 0), .NoOp, .Exit (.RdTmp 8) 32] ++
          [.IMark 0 4 0, .Store (.RdTmp 1) (.Const 0), .Exit (.RdTmp 2) 64]) =
        (dropNoOps [.Store (.RdTmp 9) (.Const 0), .NoOp, .Exit (.RdTmp 8) 32]).map .Stmt ++
          .Dirty .add_instr_len (mkIRExpr_HWord 4) :: .Stmt (.IMark 0 4 0) :: Q) ∧
      callArgs .add_n_guest_store
          (fb_instrument ([.Store (.RdTmp 9) (.Const 0), .NoOp, .Exit (.RdTmp 8) 32] ++
            [.IMark 0 4 0, .Store (.RdTmp 1) (.Const 0), .Exit (.RdTmp 2) 64])) =
        callArgs .add_n_guest_store
          (fb_instrument [.IMark 0 4 0, .Store (.RdTmp 1) (.Const 0), .Exit (.RdTmp 2) 64]) :=
  have t := preamble_not_instrumented
    [.Store (.RdTmp 9) (.Const 0), .NoOp, .Exit (.RdTmp 8) 32]
    [.IMark 0 4 0, .Store (.RdTmp 1) (.Const 0), .Exit (.RdTmp 2) 64] (by decide)
  ⟨t.2.2.2 0 4 0 [.Store (.RdTmp 1) (.Const 0), .Exit (.RdTmp 2) 64] rfl,
    t.2.1 .add_n_guest_store⟩

end Foobargrind
